import Mathlib

/-!
Verification of the split-aware KRDict lexical linker
(`resolve_teaching_vocab_krdict_split.py`) against its specification.

Strings are modelled as lists of Unicode code points (`List Nat`).
`unicodedata.normalize("NFC", ·)` / `("NFD", ·)` are modelled by the Hangul
part of the Unicode canonical composition/decomposition algorithm, which is
the relevant domain for this linker (Korean lemmas); all other code points
are normalization-inert.
-/

namespace HakMun

deriving instance DecidableEq for Except

/-! ## Hangul canonical normalization (model of `unicodedata.normalize`) -/

/-- Hangul precomposed syllable: U+AC00 .. U+D7A3. -/
def isSyl (c : Nat) : Bool := 44032 ≤ c && c ≤ 55203

/-- Leading consonant jamo: U+1100 .. U+1112. -/
def isL (c : Nat) : Bool := 4352 ≤ c && c ≤ 4370

/-- Vowel jamo: U+1161 .. U+1175. -/
def isV (c : Nat) : Bool := 4449 ≤ c && c ≤ 4469

/-- Trailing consonant jamo: U+11A8 .. U+11C2. -/
def isT (c : Nat) : Bool := 4520 ≤ c && c ≤ 4546

/-- A syllable with no trailing-consonant part (an LV syllable). -/
def isLVsyl (c : Nat) : Bool := isSyl c && (c - 44032) % 28 == 0

/-- Canonical decomposition of one code point (Hangul syllables only). -/
def decomposeChar (c : Nat) : List Nat :=
  if isSyl c then
    let si := c - 44032
    let l := 4352 + si / 588
    let v := 4449 + si % 588 / 28
    let t := si % 28
    if t = 0 then [l, v] else [l, v, 4519 + t]
  else [c]

/-- NFD: canonical decomposition of a string. -/
def nfd : List Nat → List Nat
  | [] => []
  | c :: rest => decomposeChar c ++ nfd rest

/-- Compose a leading jamo and a vowel jamo into an LV syllable. -/
def composeLV (l v : Nat) : Nat := 44032 + (l - 4352) * 588 + (v - 4449) * 28

/-- Add a trailing jamo to an LV syllable. -/
def composeT (s t : Nat) : Nat := s + (t - 4519)

/-- Canonical composition: `pend` is the last code point not yet emitted. -/
def nfcGo (pend : Nat) : List Nat → List Nat
  | [] => [pend]
  | b :: rest =>
    if isL pend && isV b then nfcGo (composeLV pend b) rest
    else if isLVsyl pend && isT b then nfcGo (composeT pend b) rest
    else pend :: nfcGo b rest

/-- NFC: canonical composition of a string. -/
def nfc : List Nat → List Nat
  | [] => []
  | c :: rest => nfcGo c rest

/-- Two adjacent code points that the composer would combine. -/
def composable (a b : Nat) : Bool := (isL a && isV b) || (isLVsyl a && isT b)

/-- A string is in composed normal form when no adjacent pair is composable. -/
def NormalNFC (l : List Nat) : Prop :=
  List.Chain' (fun a b => composable a b = false) l

/-! ## Trimming (Python `str.strip`, Postgres `btrim`) -/

/-- Code points removed by Python `str.strip()` (Unicode whitespace). -/
def pySpace (c : Nat) : Bool :=
  c == 32 || c == 9 || c == 10 || c == 13 || c == 11 || c == 12 || c == 28 ||
  c == 29 || c == 30 || c == 31 || c == 133 || c == 160 || c == 5760 ||
  (8192 ≤ c && c ≤ 8202) || c == 8232 || c == 8233 || c == 8239 || c == 8287 ||
  c == 12288

/-- Code points removed by Postgres `btrim(text)` (the ASCII space). -/
def sqlSpace (c : Nat) : Bool := c == 32

/-- Remove the longest trailing run satisfying `p`. -/
def dropTrailing (p : Nat → Bool) (l : List Nat) : List Nat :=
  (l.reverse.dropWhile p).reverse

/-- Remove the longest leading and trailing runs satisfying `p`. -/
def stripBy (p : Nat → Bool) (l : List Nat) : List Nat :=
  dropTrailing p (l.dropWhile p)

/-- Python `s.strip()` on code-point lists. -/
def pyStrip (l : List Nat) : List Nat := stripBy pySpace l

/-- Postgres `btrim(s)` on code-point lists. -/
def btrim (l : List Nat) : List Nat := stripBy sqlSpace l

/-! ## `lemma_key`: the matching key (trim + NFC) used throughout -/

/-- `lemma_key(raw)`: Python `unicodedata.normalize("NFC", raw.strip())`. -/
def lemma_key (raw : List Nat) : List Nat := nfc (pyStrip raw)

/-! ## `build_variant_list` -/

/-- One inner step of `build_variant_list`: strip the variant, then add it when
it is non-empty and unseen (the `seen` set always equals the members of the
accumulated list). -/
def addVariant (acc : List (List Nat)) (v : List Nat) : List (List Nat) :=
  if pyStrip v ≠ [] ∧ pyStrip v ∉ acc then acc ++ [pyStrip v] else acc

/-- `build_variant_list(keys)`: for each key `k` the query variants
`(k, nfd k, nfc k)`, stripped, deduplicated preserving first-seen order,
empty variants dropped. -/
def build_variant_list (keys : List (List Nat)) : List (List Nat) :=
  keys.foldl
    (fun acc k => addVariant (addVariant (addVariant acc k) (nfd k)) (nfc k)) []

/-! ## Candidates, the Python sort, and candidate retrieval -/

/-- A dictionary candidate as selected from the reference table. -/
structure Candidate where
  krdict_id : String
  pos : Option String
  en_lemma : Option String
deriving DecidableEq

/-- A row of the reference dictionary table (`krdict_lexical_entry_fast`). -/
structure KrdictRow where
  source_entry_id : String
  pos : Option String
  en_lemma : Option String
  headword : List Nat
deriving DecidableEq

/-- Python `str.isdigit` on id strings (ASCII-digit ids). -/
def isDigits (s : String) : Bool := !s.toList.isEmpty && s.toList.all (·.isDigit)

/-- `int(s)` for an all-digit string. -/
def digitsToNat (s : String) : Nat :=
  s.toList.foldl (fun n c => n * 10 + (c.toNat - 48)) 0

/-- Python `str.strip()` on plain strings (labels and glosses), executable
over the character list. -/
def pyStrTrim (s : String) : String :=
  String.mk (((s.toList.dropWhile Char.isWhitespace).reverse.dropWhile
    Char.isWhitespace).reverse)

/-- Python string `<=`: lexicographic on code points. -/
def lexLeCh : List Char → List Char → Bool
  | [], _ => true
  | _ :: _, [] => false
  | a :: as, b :: bs =>
    if a.toNat < b.toNat then true
    else if b.toNat < a.toNat then false
    else lexLeCh as bs

def strLeB (a b : String) : Bool := lexLeCh a.toList b.toList

/-- The order used on a candidate list whose sort keys are homogeneous:
numeric comparison when both ids are all-digit, else Python string order. -/
def candLe (a b : Candidate) : Prop :=
  if isDigits a.krdict_id && isDigits b.krdict_id
  then digitsToNat a.krdict_id ≤ digitsToNat b.krdict_id
  else strLeB a.krdict_id b.krdict_id = true

instance : DecidableRel candLe := fun a b => by
  unfold candLe
  split <;> infer_instance

/-- Model of `out[k].sort(key=lambda c: int(c.krdict_id) if
c.krdict_id.isdigit() else c.krdict_id)`: when the list mixes all-digit and
non-digit ids the key list mixes `int` and `str` and Python's sort raises
`TypeError` (`none`); otherwise it returns the stable ascending order. -/
def pySortCandidates (l : List Candidate) : Option (List Candidate) :=
  if (l.any fun c => isDigits c.krdict_id) && (l.any fun c => !isDigits c.krdict_id)
  then none
  else some (List.insertionSort candLe l)

/-- Association-list lookup (`dict.get`). -/
def alookup {α β : Type} [DecidableEq α] : List (α × β) → α → Option β
  | [], _ => none
  | (k', v) :: rest, k => if k' = k then some v else alookup rest k

/-- Python `m[k] = v`: overwrite the present key in place (keys are unique in
a `dict`), else append at the end. -/
def dictInsert {α β : Type} [DecidableEq α] : List (α × β) → α → β → List (α × β)
  | [], k, v => [(k, v)]
  | (k', w) :: rest, k, v =>
    if k' = k then (k, v) :: rest else (k', w) :: dictInsert rest k v

/-- Python `m.setdefault(k, []).append(c)`. -/
def bucketAdd (m : List (List Nat × List Candidate)) (k : List Nat)
    (c : Candidate) : List (List Nat × List Candidate) :=
  dictInsert m k (((alookup m k).getD []) ++ [c])

/-- The SQL filter `WHERE btrim(kd.headword) = ANY(variants)`. -/
def sqlMatches (variants : List (List Nat)) (r : KrdictRow) : Bool :=
  decide (btrim r.headword ∈ variants)

/-- The key under which a returned row is grouped: Python re-normalizes the
fetched headword with the same trim+NFC key function. -/
def rowKey (r : KrdictRow) : List Nat := lemma_key (pyStrip r.headword)

/-- The candidate built from a returned row. -/
def rowCandidate (r : KrdictRow) : Candidate :=
  ⟨r.source_entry_id, r.pos, r.en_lemma⟩

/-- The grouping loop of `fetch_candidates_for_lemma_keys`: iterate the
matching rows in table order and append each candidate to its key's list. -/
def collectCandidates (table : List KrdictRow) (variants : List (List Nat)) :
    List (List Nat × List Candidate) :=
  (table.filter (sqlMatches variants)).foldl
    (fun m r => bucketAdd m (rowKey r) (rowCandidate r)) []

/-- `for k in out: out[k].sort(...)` — fails when any bucket's sort raises. -/
def sortBuckets : List (List Nat × List Candidate) →
    Option (List (List Nat × List Candidate))
  | [] => some []
  | (k, l) :: rest =>
    match pySortCandidates l, sortBuckets rest with
    | some l', some rest' => some ((k, l') :: rest')
    | _, _ => none

/-- `fetch_candidates_for_lemma_keys(cur, keys)` over an explicit table. -/
def fetch_candidates_for_lemma_keys (table : List KrdictRow)
    (keys : List (List Nat)) : Option (List (List Nat × List Candidate)) :=
  sortBuckets (collectCandidates table (build_variant_list keys))

/-! ## Oracle output and the validator -/

/-- One proposed sense in the oracle's structured response. -/
structure SenseOut where
  sense_label : String
  gloss_en : String
  krdict_id : String
deriving DecidableEq

/-- One per-row result in the oracle's response (`lemma_out` models the
response field `lemma`, a Lean keyword). -/
structure ResultEntry where
  vocab_id : String
  lemma_out : String
  senses : List SenseOut
deriving DecidableEq

/-- The oracle's whole structured response. -/
structure ModelOut where
  results : List ResultEntry
deriving DecidableEq

/-- A teaching-vocabulary row as selected by `fetch_teaching_rows`. -/
structure TeachingRow where
  vocab_id : String
  lemma_raw : List Nat
  lemma_key : List Nat
  part_of_speech : Option String
  level : Option String
  tags : Option String
  status : Option String
  canonical_ref : Option String
  pos_code : Option String
  pos_label : Option String
  gloss_en : Option String
  has_primary_en_gloss : Bool
deriving DecidableEq

/-- Validation failures (`ValueError` / `RuntimeError` in the source). -/
inductive VErr
  | notInBatch (vid : String)
  | emptySenses (vid : String)
  | notInCandidates (vid kid : String)
  | repeatedId (vid kid : String)
  | missingIds (ids : List String) (truncated : Bool)
deriving DecidableEq

/-- `row_by_id = {r.vocab_id: r for r in batch_rows}`. -/
def rowById (batch : List TeachingRow) : List (String × TeachingRow) :=
  batch.foldl (fun m r => dictInsert m r.vocab_id r) []

/-- The inner sense loop of `validate_model_output`: each sense's chosen id
must come from this row's candidate ids and must not repeat within the
result; accepted senses are trimmed. -/
def validateSenses (vid : String) (cand_ids : List String) :
    List SenseOut → List String → Except VErr (List SenseOut)
  | [], _ => .ok []
  | s :: rest, used =>
    if s.krdict_id ∉ cand_ids then .error (.notInCandidates vid s.krdict_id)
    else if s.krdict_id ∈ used then .error (.repeatedId vid s.krdict_id)
    else
      match validateSenses vid cand_ids rest (s.krdict_id :: used) with
      | .error e => .error e
      | .ok tail =>
        .ok ({ sense_label := pyStrTrim s.sense_label,
               gloss_en := pyStrTrim s.gloss_en,
               krdict_id := s.krdict_id } :: tail)

/-- The outer result loop of `validate_model_output` (the returned `lemma`
field is never inspected). -/
def validateLoop (batch : List TeachingRow) (cget : List Nat → List Candidate) :
    List ResultEntry → List (String × List SenseOut) →
    Except VErr (List (String × List SenseOut))
  | [], mapping => .ok mapping
  | entry :: rest, mapping =>
    if entry.vocab_id ∉ batch.map (·.vocab_id) then
      .error (.notInBatch entry.vocab_id)
    else
      match alookup (rowById batch) entry.vocab_id with
      | none => .error (.notInBatch entry.vocab_id)
      | some row =>
        if entry.senses = [] then .error (.emptySenses entry.vocab_id)
        else
          match validateSenses entry.vocab_id
              ((cget row.lemma_key).map (·.krdict_id)) entry.senses [] with
          | .error e => .error e
          | .ok out_senses =>
            validateLoop batch cget rest (dictInsert mapping entry.vocab_id out_senses)

/-- `missing = [r.vocab_id for r in batch_rows if r.vocab_id not in mapping]`. -/
def missingIdsOf (batch : List TeachingRow)
    (mapping : List (String × List SenseOut)) : List String :=
  (batch.filter (fun r => (alookup mapping r.vocab_id).isNone)).map (·.vocab_id)

/-- `validate_model_output(out, batch_rows, candidates_by_key)`. -/
def validate_model_output (out : ModelOut) (batch : List TeachingRow)
    (cget : List Nat → List Candidate) :
    Except VErr (List (String × List SenseOut)) :=
  match validateLoop batch cget out.results [] with
  | .error e => .error e
  | .ok mapping =>
    if missingIdsOf batch mapping = [] then .ok mapping
    else .error (.missingIds ((missingIdsOf batch mapping).take 10)
      (decide (10 < (missingIdsOf batch mapping).length)))

/-! ## Database state and the writer -/

/-- A row of the `teaching_vocab` table (`lemma_txt` models column `lemma`). -/
structure TVRow where
  id : String
  lemma_txt : List Nat
  part_of_speech : Option String
  level : Option String
  tags : Option String
  status : Option String
  canonical_ref : Option String
  created_at : Nat
  updated_at : Nat
  pos_code : Option String
  pos_label : Option String
deriving DecidableEq

/-- A row of the `vocab_glosses` table. -/
structure GlossRow where
  vocab_id : String
  language : String
  text : String
  is_primary : Bool
deriving DecidableEq

/-- The durable database state touched by the writer. -/
structure DB where
  teaching : List TVRow
  glosses : List GlossRow
deriving DecidableEq

/-- `UPDATE teaching_vocab SET canonical_ref = %s, updated_at = now()
WHERE id = %s`. -/
def update_canonical_ref (db : DB) (vocab_id kid : String) (now : Nat) : DB :=
  { db with teaching := db.teaching.map fun r =>
      if r.id = vocab_id then
        { r with canonical_ref := some kid, updated_at := now } else r }

/-- The `WHERE` clause of the gloss upsert. -/
def isPrimaryEn (vocab_id : String) (g : GlossRow) : Bool :=
  decide (g.vocab_id = vocab_id) && decide (g.language = "en") && g.is_primary

/-- `upsert_primary_en_gloss`: `UPDATE`; when no row matched, `INSERT`. -/
def upsert_primary_en_gloss (db : DB) (vocab_id text : String) : DB :=
  if db.glosses.any (isPrimaryEn vocab_id) then
    { db with glosses := db.glosses.map fun g =>
        if isPrimaryEn vocab_id g then { g with text := text } else g }
  else
    { db with glosses := db.glosses ++ [⟨vocab_id, "en", text, true⟩] }

/-- Fatal conditions of one batch (each aborts the batch's transaction). -/
inductive RunErr
  | sortCrash
  | noCandidates (lemmas : List (List Nat))
  | oracleErr (msg : String)
  | validationErr (e : VErr)
  | pkViolation (vid : String)
  | senseIndexErr (vid : String)
  | mappingMiss (vid : String)
deriving DecidableEq

/-- `insert_new_teaching_vocab_row`: clone the source row's descriptive
attributes under a fresh id; the underlying SQL insert fails on a duplicate
primary key. -/
def insert_new_teaching_vocab_row (db : DB) (src : TeachingRow)
    (canonical_ref : String) (new_id : String) (now : Nat) : Except RunErr DB :=
  if db.teaching.any (fun r => decide (r.id = new_id)) then
    .error (.pkViolation new_id)
  else
    .ok { db with teaching := db.teaching ++
      [{ id := new_id, lemma_txt := src.lemma_raw,
         part_of_speech := src.part_of_speech, level := src.level,
         tags := src.tags, status := src.status,
         canonical_ref := some canonical_ref, created_at := now,
         updated_at := now, pos_code := src.pos_code,
         pos_label := src.pos_label }] }

/-! ## Per-batch apply loop, audit log, and the batch runner -/

/-- One entry of a split action's `inserts` list in the audit log. -/
structure InsertRec where
  new_vocab_id : String
  krdict_id : String
  gloss_en : String
  sense_label : String
deriving DecidableEq

/-- One per-row action in the batch's audit record. -/
inductive Action
  | single (vocab_id : String) (lemma_raw lemma_key : List Nat)
      (set_canonical_ref set_gloss_en : String)
  | split (vocab_id : String) (lemma_raw lemma_key : List Nat)
      (primary : SenseOut) (inserts : List InsertRec)
deriving DecidableEq

/-- The row an action belongs to. -/
def Action.vid : Action → String
  | .single v _ _ _ _ => v
  | .split v _ _ _ _ => v

/-- The newly created row ids recorded in an action. -/
def Action.insertIds : Action → List String
  | .single _ _ _ _ _ => []
  | .split _ _ _ _ ins => ins.map (·.new_vocab_id)

/-- A record appended to the JSONL audit log. -/
inductive LogRec
  | noCandidates (dry_run : Bool) (lemmas : List (List Nat))
  | batchRec (dry_run : Bool) (model mode : String) (batch_size : Nat)
      (actions : List Action)
deriving DecidableEq

/-- Externally observable events of one batch, in order. -/
inductive Ev
  | logAppend (r : LogRec)
  | oracleCall
  | commit
deriving DecidableEq

/-- The `for extra in senses[1:]` insert loop of a split: each extra sense
gets a fresh uuid (`idGen ctr`), a cloned row, and its own primary gloss. -/
def applyExtras (idGen : Nat → String) (now : Nat) (src : TeachingRow) :
    DB → Nat → List SenseOut → Except RunErr (DB × Nat × List InsertRec)
  | db, ctr, [] => .ok (db, ctr, [])
  | db, ctr, s :: rest =>
    match insert_new_teaching_vocab_row db src s.krdict_id (idGen ctr) now with
    | .error e => .error e
    | .ok db1 =>
      match applyExtras idGen now src
          (upsert_primary_en_gloss db1 (idGen ctr) s.gloss_en) (ctr + 1) rest with
      | .error e => .error e
      | .ok (db3, ctr3, recs) =>
        .ok (db3, ctr3, ⟨idGen ctr, s.krdict_id, s.gloss_en, s.sense_label⟩ :: recs)

/-- The `for r in batch` apply loop: rows are applied in batch order; a
one-sense result updates in place, a multi-sense result updates in place for
the first sense and inserts clones for the rest; in dry-run mode the decision
is recorded but no database operation is performed. -/
def applyRows (dryRun : Bool) (idGen : Nat → String) (now : Nat)
    (mapping : List (String × List SenseOut)) :
    DB → Nat → List TeachingRow → Except RunErr (DB × Nat × List Action)
  | db, ctr, [] => .ok (db, ctr, [])
  | db, ctr, r :: rest =>
    match alookup mapping r.vocab_id with
    | none => .error (.mappingMiss r.vocab_id)
    | some senses =>
      match senses with
      | [] => .error (.senseIndexErr r.vocab_id)
      | [s0] =>
        match applyRows dryRun idGen now mapping
            (if dryRun then db else
              upsert_primary_en_gloss
                (update_canonical_ref db r.vocab_id s0.krdict_id now)
                r.vocab_id s0.gloss_en) ctr rest with
        | .error e => .error e
        | .ok (dbf, ctrf, acts) =>
          .ok (dbf, ctrf,
            Action.single r.vocab_id r.lemma_raw r.lemma_key s0.krdict_id
              s0.gloss_en :: acts)
      | s0 :: s1 :: srest =>
        if dryRun then
          match applyRows dryRun idGen now mapping db ctr rest with
          | .error e => .error e
          | .ok (dbf, ctrf, acts) =>
            .ok (dbf, ctrf,
              Action.split r.vocab_id r.lemma_raw r.lemma_key s0 [] :: acts)
        else
          match applyExtras idGen now r
              (upsert_primary_en_gloss
                (update_canonical_ref db r.vocab_id s0.krdict_id now)
                r.vocab_id s0.gloss_en) ctr (s1 :: srest) with
          | .error e => .error e
          | .ok (db2, ctr2, inserts) =>
            match applyRows dryRun idGen now mapping db2 ctr2 rest with
            | .error e => .error e
            | .ok (dbf, ctrf, acts) =>
              .ok (dbf, ctrf,
                Action.split r.vocab_id r.lemma_raw r.lemma_key s0 inserts :: acts)

/-- Lexicographic code-point order on strings (Python `<` on `str`). -/
def lexLtB : List Nat → List Nat → Bool
  | [], [] => false
  | [], _ :: _ => true
  | _ :: _, [] => false
  | a :: as, b :: bs => if a < b then true else if b < a then false else lexLtB as bs

def lexLeB (x y : List Nat) : Bool := lexLtB x y || decide (x = y)

/-- Python `sorted(set(l))`: the distinct elements in ascending order. -/
def pySortedSet (l : List (List Nat)) : List (List Nat) :=
  l.dedup.insertionSort (fun a b => lexLeB a b = true)

/-- Run configuration (the env-derived globals that matter here). -/
structure BatchCfg where
  dryRun : Bool
  model : String
  mode : String

/-- `keys = sorted({r.lemma_key for r in batch})`. -/
def batchKeys (batch : List TeachingRow) : List (List Nat) :=
  pySortedSet (batch.map (·.lemma_key))

/-- `candidates_by_key.get(k, [])`. -/
def cgetOf (cmap : List (List Nat × List Candidate)) : List Nat → List Candidate :=
  fun k => (alookup cmap k).getD []

/-- `no_cands = [r.lemma_key for r in batch if not candidates_by_key.get(...)]`. -/
def noCandsOf (cmap : List (List Nat × List Candidate))
    (batch : List TeachingRow) : List (List Nat) :=
  (batch.filter (fun r => (cgetOf cmap r.lemma_key).isEmpty)).map (·.lemma_key)

/-- One batch iteration of `main`'s `while` loop: retrieval, integrity check,
oracle call, validation, apply, audit append, commit.  Returns the batch's
event trace and either the new committed state (with the uuid counter) or the
fatal error; an error means the surrounding `except` rolls the transaction
back, so the committed state is unchanged. -/
def processBatch (cfg : BatchCfg) (table : List KrdictRow) (idGen : Nat → String)
    (db : DB) (ctr : Nat) (now : Nat) (batch : List TeachingRow)
    (resp : Except String ModelOut) : List Ev × Except RunErr (DB × Nat) :=
  match fetch_candidates_for_lemma_keys table (batchKeys batch) with
  | none => ([], .error .sortCrash)
  | some cmap =>
    if noCandsOf cmap batch ≠ [] then
      ([.logAppend (.noCandidates cfg.dryRun
          ((pySortedSet (noCandsOf cmap batch)).take 200))],
       .error (.noCandidates ((pySortedSet (noCandsOf cmap batch)).take 20)))
    else
      match resp with
      | .error msg => ([.oracleCall], .error (.oracleErr msg))
      | .ok out =>
        match validate_model_output out batch (cgetOf cmap) with
        | .error e => ([.oracleCall], .error (.validationErr e))
        | .ok mapping =>
          match applyRows cfg.dryRun idGen now mapping db ctr batch with
          | .error e => ([.oracleCall], .error e)
          | .ok (db', ctr', actions) =>
            if cfg.dryRun then
              ([.oracleCall, .logAppend (.batchRec cfg.dryRun cfg.model cfg.mode
                  batch.length actions)], .ok (db, ctr'))
            else
              ([.oracleCall, .logAppend (.batchRec cfg.dryRun cfg.model cfg.mode
                  batch.length actions), .commit], .ok (db', ctr'))

/-- Result of running the batch loop. -/
structure RunOut where
  db : DB
  ctr : Nat
  evs : List Ev
  err : Option RunErr
deriving DecidableEq

/-- `main`'s batch loop: batches are processed sequentially; each batch
commits independently; the first error stops the run and rolls back the
current transaction only, leaving the committed state of the prior batches. -/
def runBatches (cfg : BatchCfg) (table : List KrdictRow) (idGen : Nat → String) :
    DB → Nat → Nat → List (List TeachingRow × Except String ModelOut) → RunOut
  | db, ctr, _, [] => ⟨db, ctr, [], none⟩
  | db, ctr, now, (batch, resp) :: rest =>
    match processBatch cfg table idGen db ctr now batch resp with
    | (evs, .error e) => ⟨db, ctr, evs, some e⟩
    | (evs, .ok (db', ctr')) =>
      let out := runBatches cfg table idGen db' ctr' (now + 1) rest
      ⟨out.db, out.ctr, evs ++ out.evs, out.err⟩

/-! ## The full shape of a split's inserts -/

/-- The clone row inserted for one extra sense `s` under fresh id `nid`. -/
def extraRow (src : TeachingRow) (s : SenseOut) (nid : String) (now : Nat) :
    TVRow :=
  { id := nid, lemma_txt := src.lemma_raw, part_of_speech := src.part_of_speech,
    level := src.level, tags := src.tags, status := src.status,
    canonical_ref := some s.krdict_id, created_at := now, updated_at := now,
    pos_code := src.pos_code, pos_label := src.pos_label }

/-- The uuids drawn for `n` consecutive inserts starting at counter `ctr`. -/
def idsFrom (idGen : Nat → String) (ctr n : Nat) : List String :=
  (List.range n).map (fun i => idGen (ctr + i))

/-! ## Fixtures for concrete witnesses and counterexamples -/

/-- A one-row batch: row `"a"` with lemma `"a"` (code point 97). -/
def rowA : TeachingRow :=
  ⟨"a", [97], [97], none, none, none, none, none, none, none, some "g", true⟩

/-- A second row `"b"` with lemma `"b"` (code point 98). -/
def rowB : TeachingRow :=
  ⟨"b", [98], [98], none, none, none, none, none, none, none, some "g", true⟩

/-- A candidate map giving row `"a"` the lone candidate id `"1"` and row
`"b"` the lone candidate id `"2"`. -/
def cgetAB : List Nat → List Candidate :=
  fun k => if k = [97] then [⟨"1", none, none⟩]
    else if k = [98] then [⟨"2", none, none⟩] else []

/-- An oracle output that answers batch row `"a"` twice (a duplicated
result id) with the valid candidate `"1"` both times. -/
def outDup : ModelOut :=
  ⟨[⟨"a", "x", [⟨"l", "g", "1"⟩]⟩, ⟨"a", "y", [⟨"l", "g", "1"⟩]⟩]⟩

/-- The reference table for the two-row fixture: headwords `"a"` and `"b"`
with candidate ids `"1"` and `"2"`. -/
def tableAB : List KrdictRow := [⟨"1", none, none, [97]⟩, ⟨"2", none, none, [98]⟩]

/-- The stored vocabulary rows of the fixture. -/
def tvA : TVRow := ⟨"a", [97], none, none, none, none, none, 0, 0, none, none⟩

def tvB : TVRow := ⟨"b", [98], none, none, none, none, none, 0, 0, none, none⟩

def dbAB : DB := ⟨[tvA, tvB], []⟩

def cfgLive : BatchCfg := ⟨false, "m", "needs_work"⟩

/-- A uuid supply (only one insert is ever drawn in the fixtures). -/
def idGenZ : Nat → String := fun _ => "z"

def batchAB : List TeachingRow := [rowA, rowB]

/-- An oracle response listing row `"b"` before row `"a"` (both valid). -/
def respRev : ModelOut :=
  ⟨[⟨"b", "b", [⟨"l", "gb", "2"⟩]⟩, ⟨"a", "a", [⟨"l", "ga", "1"⟩]⟩]⟩

/-- An oracle response whose second result chooses candidate `"9"`, which is
in no row's candidate set. -/
def respBad : Except String ModelOut :=
  .ok ⟨[⟨"a", "a", [⟨"l", "ga", "1"⟩]⟩, ⟨"b", "b", [⟨"l", "gb", "9"⟩]⟩]⟩

/-- The committed state after the fixture batch succeeds. -/
def dbABAfter : DB :=
  ⟨[{ tvA with canonical_ref := some "1" }, { tvB with canonical_ref := some "2" }],
   [⟨"a", "en", "ga", true⟩, ⟨"b", "en", "gb", true⟩]⟩

def sA : SenseOut := ⟨"l1", "g1", "1"⟩

def sB : SenseOut := ⟨"l2", "g2", "2"⟩

/-- A validated mapping giving row `"a"` two senses (a split). -/
def mapSplit : List (String × List SenseOut) := [("a", [sA, sB])]

/-- The state after the split: row `"a"` re-pointed at candidate `"1"`, one
clone row `"z"` for the second sense, one gloss per sense. -/
def dbSplit : DB :=
  ⟨[{ tvA with canonical_ref := some "1", updated_at := 5 }, tvB,
    extraRow rowA sB "z" 5],
   [⟨"a", "en", "g1", true⟩, ⟨"z", "en", "g2", true⟩]⟩

def actSplit : List Action := [.split "a" [97] [97] sA [⟨"z", "2", "g2", "l2"⟩]]

/-- The syllable 가 (U+AC00) as a lemma key. -/
def kGa : List Nat := [44032]

/-- A reference row storing the same syllable in decomposed form
(ᄀ U+1100, ᅡ U+1161). -/
def qGa : KrdictRow := ⟨"7", none, none, [4352, 4449]⟩

/-! ## Theorems -/

lemma isSyl_composeLV {l v : Nat} (hl : isL l = true) (hv : isV v = true) :
    isSyl (composeLV l v) = true := by
  simp only [isL, isV, Bool.and_eq_true, decide_eq_true_eq] at hl hv
  simp only [isSyl, composeLV, Bool.and_eq_true, decide_eq_true_eq]
  omega

lemma isLVsyl_composeLV {l v : Nat} (hl : isL l = true) (hv : isV v = true) :
    isLVsyl (composeLV l v) = true := by
  simp only [isL, isV, Bool.and_eq_true, decide_eq_true_eq] at hl hv
  simp only [isLVsyl, isSyl, composeLV, Bool.and_eq_true, decide_eq_true_eq,
    beq_iff_eq]
  omega

lemma isSyl_composeT {s t : Nat} (hs : isLVsyl s = true) (ht : isT t = true) :
    isSyl (composeT s t) = true := by
  simp only [isLVsyl, isSyl, isT, Bool.and_eq_true, decide_eq_true_eq,
    beq_iff_eq] at hs ht
  simp only [isSyl, composeT, Bool.and_eq_true, decide_eq_true_eq]
  omega

lemma composable_syl_right {a z : Nat} (hz : isSyl z = true) :
    composable a z = false := by
  simp only [isSyl, Bool.and_eq_true, decide_eq_true_eq] at hz
  simp only [composable, isV, isT, Bool.or_eq_false_iff, Bool.and_eq_false_iff]
  constructor <;> right <;> simp only [Bool.and_eq_false_iff, decide_eq_false_iff_not] <;> omega

/-- The head of the composer's output is the pending code point or a syllable. -/
lemma nfcGo_head : ∀ (l : List Nat) (pend : Nat),
    ∃ z0 zs, nfcGo pend l = z0 :: zs ∧ (z0 = pend ∨ isSyl z0 = true)
  | [], pend => ⟨pend, [], rfl, Or.inl rfl⟩
  | b :: rest, pend => by
    simp only [nfcGo]
    split
    · rename_i h
      simp only [Bool.and_eq_true] at h
      obtain ⟨z0, zs, heq, hz⟩ := nfcGo_head rest (composeLV pend b)
      refine ⟨z0, zs, heq, Or.inr ?_⟩
      rcases hz with h' | h'
      · exact h' ▸ isSyl_composeLV h.1 h.2
      · exact h'
    · split
      · rename_i h
        simp only [Bool.and_eq_true] at h
        obtain ⟨z0, zs, heq, hz⟩ := nfcGo_head rest (composeT pend b)
        refine ⟨z0, zs, heq, Or.inr ?_⟩
        rcases hz with h' | h'
        · exact h' ▸ isSyl_composeT h.1 h.2
        · exact h'
      · exact ⟨pend, nfcGo b rest, rfl, Or.inl rfl⟩

lemma isV_false_of_isL {c : Nat} (h : isL c = true) : isV c = false := by
  simp only [isL, Bool.and_eq_true, decide_eq_true_eq] at h
  simp only [isV, Bool.and_eq_false_iff, decide_eq_false_iff_not]
  omega

lemma isT_false_of_isL {c : Nat} (h : isL c = true) : isT c = false := by
  simp only [isL, Bool.and_eq_true, decide_eq_true_eq] at h
  simp only [isT, Bool.and_eq_false_iff, decide_eq_false_iff_not]
  omega

/-- Recomposing the decomposition of one code point, in front of any tail,
yields the same result as composing the original code point. -/
lemma nfcGo_decomposeChar (c : Nat) (t : List Nat) (pend : Nat) :
    nfcGo pend (decomposeChar c ++ t) = nfcGo pend (c :: t) := by
  by_cases hc : isSyl c = true
  · have hrange : 44032 ≤ c ∧ c ≤ 55203 := by
      simp only [isSyl, Bool.and_eq_true, decide_eq_true_eq] at hc; exact hc
    set si := c - 44032 with hsi
    have hL : isL (4352 + si / 588) = true := by
      simp only [isL, Bool.and_eq_true, decide_eq_true_eq]; omega
    have hV : isV (4449 + si % 588 / 28) = true := by
      simp only [isV, Bool.and_eq_true, decide_eq_true_eq]; omega
    have hcompLV : composeLV (4352 + si / 588) (4449 + si % 588 / 28)
        = 44032 + si - si % 28 := by
      simp only [composeLV]; omega
    have hnotVc : isV c = false := by
      simp only [isV, Bool.and_eq_false_iff, decide_eq_false_iff_not]; omega
    have hnotTc : isT c = false := by
      simp only [isT, Bool.and_eq_false_iff, decide_eq_false_iff_not]; omega
    by_cases ht0 : si % 28 = 0
    · have hdec : decomposeChar c = [4352 + si / 588, 4449 + si % 588 / 28] := by
        simp only [decomposeChar, hc, if_true, ← hsi, ht0, if_pos rfl]
    -- left side: emit `pend`, then compose L and V into `c`
      rw [hdec]
      show nfcGo pend ((4352 + si / 588) :: (4449 + si % 588 / 28) :: t)
          = nfcGo pend (c :: t)
      simp only [nfcGo, isV_false_of_isL hL, isT_false_of_isL hL, hnotVc, hnotTc,
        Bool.and_false, Bool.false_eq_true, if_false, hL, hV, Bool.and_self,
        Bool.and_true, Bool.true_and, if_true]
      rw [hcompLV]
      have : 44032 + si - si % 28 = c := by omega
      rw [this]
    · have hdec : decomposeChar c
          = [4352 + si / 588, 4449 + si % 588 / 28, 4519 + si % 28] := by
        simp only [decomposeChar, hc, if_true, ← hsi, if_neg ht0]
      have hlv : isLVsyl (44032 + si - si % 28) = true := by
        simp only [isLVsyl, isSyl, Bool.and_eq_true, decide_eq_true_eq, beq_iff_eq]
        omega
      have hT : isT (4519 + si % 28) = true := by
        simp only [isT, Bool.and_eq_true, decide_eq_true_eq]; omega
      have hnotV' : isV (4519 + si % 28) = false := by
        simp only [isV, Bool.and_eq_false_iff, decide_eq_false_iff_not]; omega
      rw [hdec]
      show nfcGo pend
          ((4352 + si / 588) :: (4449 + si % 588 / 28) :: (4519 + si % 28) :: t)
          = nfcGo pend (c :: t)
      simp only [nfcGo, isV_false_of_isL hL, isT_false_of_isL hL, hnotVc, hnotTc,
        Bool.and_false, Bool.false_eq_true, if_false, hL, hV, Bool.and_self,
        Bool.and_true, Bool.true_and, if_true]
      rw [hcompLV]
      have hlvL : isL (44032 + si - si % 28) = false := by
        simp only [isL, Bool.and_eq_false_iff, decide_eq_false_iff_not]; omega
      simp only [hlvL, Bool.false_and, Bool.false_eq_true, if_false, hlv, hT,
        Bool.and_self, Bool.and_true, Bool.true_and, if_true]
      have : composeT (44032 + si - si % 28) (4519 + si % 28) = c := by
        simp only [composeT]; omega
      rw [this]
  · have hc' : isSyl c = false := by revert hc; cases isSyl c <;> simp
    simp only [decomposeChar, hc', Bool.false_eq_true, if_false, List.cons_append,
      List.nil_append]

/-- Composing a decomposed string equals composing the original string. -/
lemma nfcGo_nfd : ∀ (s : List Nat) (pend : Nat),
    nfcGo pend (nfd s) = nfcGo pend s
  | [], _ => rfl
  | c :: rest, pend => by
    show nfcGo pend (decomposeChar c ++ nfd rest) = nfcGo pend (c :: rest)
    rw [nfcGo_decomposeChar]
    simp only [nfcGo]
    split
    · exact nfcGo_nfd rest _
    · split
      · exact nfcGo_nfd rest _
      · rw [nfcGo_nfd rest c]

/-- NFC after NFD agrees with NFC. -/
theorem nfc_nfd (s : List Nat) : nfc (nfd s) = nfc s := by
  cases s with
  | nil => rfl
  | cons c rest =>
    show nfc (decomposeChar c ++ nfd rest) = nfcGo c rest
    by_cases hc : isSyl c = true
    · have h1 : nfc (decomposeChar c ++ nfd rest) = nfcGo c (nfd rest) := by
        have hrange : 44032 ≤ c ∧ c ≤ 55203 := by
          simp only [isSyl, Bool.and_eq_true, decide_eq_true_eq] at hc; exact hc
        set si := c - 44032 with hsi
        have hL : isL (4352 + si / 588) = true := by
          simp only [isL, Bool.and_eq_true, decide_eq_true_eq]; omega
        have hV : isV (4449 + si % 588 / 28) = true := by
          simp only [isV, Bool.and_eq_true, decide_eq_true_eq]; omega
        have hcompLV : composeLV (4352 + si / 588) (4449 + si % 588 / 28)
            = 44032 + si - si % 28 := by
          simp only [composeLV]; omega
        by_cases ht0 : si % 28 = 0
        · have hdec : decomposeChar c = [4352 + si / 588, 4449 + si % 588 / 28] := by
            simp only [decomposeChar, hc, if_true, ← hsi, ht0, if_pos rfl]
          rw [hdec]
          show nfcGo (4352 + si / 588) ((4449 + si % 588 / 28) :: nfd rest)
              = nfcGo c (nfd rest)
          simp only [nfcGo, hL, hV, Bool.and_self, Bool.and_true, Bool.true_and,
            if_true]
          rw [hcompLV]
          have : 44032 + si - si % 28 = c := by omega
          rw [this]
        · have hdec : decomposeChar c
              = [4352 + si / 588, 4449 + si % 588 / 28, 4519 + si % 28] := by
            simp only [decomposeChar, hc, if_true, ← hsi, if_neg ht0]
          have hlv : isLVsyl (44032 + si - si % 28) = true := by
            simp only [isLVsyl, isSyl, Bool.and_eq_true, decide_eq_true_eq,
              beq_iff_eq]
            omega
          have hT : isT (4519 + si % 28) = true := by
            simp only [isT, Bool.and_eq_true, decide_eq_true_eq]; omega
          rw [hdec]
          show nfcGo (4352 + si / 588)
              ((4449 + si % 588 / 28) :: (4519 + si % 28) :: nfd rest)
              = nfcGo c (nfd rest)
          simp only [nfcGo, hL, hV, Bool.and_self, Bool.and_true, Bool.true_and,
            if_true]
          rw [hcompLV]
          have hlvL : isL (44032 + si - si % 28) = false := by
            simp only [isL, Bool.and_eq_false_iff, decide_eq_false_iff_not]; omega
          simp only [nfcGo, hlvL, Bool.false_and, Bool.false_eq_true, if_false,
            hlv, hT, Bool.and_self, Bool.and_true, Bool.true_and, if_true]
          have : composeT (44032 + si - si % 28) (4519 + si % 28) = c := by
            simp only [composeT]; omega
          rw [this]
      rw [h1, nfcGo_nfd]
    · have hc' : isSyl c = false := by revert hc; cases isSyl c <;> simp
      have hdec : decomposeChar c = [c] := by
        simp only [decomposeChar, hc', Bool.false_eq_true, if_false]
      rw [hdec]
      show nfcGo c (nfd rest) = nfcGo c rest
      exact nfcGo_nfd rest c

/-- The composer's output is in composed normal form. -/
lemma nfcGo_normal : ∀ (l : List Nat) (pend : Nat), NormalNFC (nfcGo pend l)
  | [], pend => by simp [NormalNFC, nfcGo]
  | b :: rest, pend => by
    simp only [nfcGo]
    split
    · exact nfcGo_normal rest _
    · split
      · exact nfcGo_normal rest _
      · rename_i h1 h2
        obtain ⟨z0, zs, heq, hz⟩ := nfcGo_head rest b
        have hnc : composable pend z0 = false := by
          rcases hz with h' | h'
          · subst h'
            simp only [composable, Bool.or_eq_false_iff]
            constructor
            · simpa using h1
            · simpa using h2
          · exact composable_syl_right h'
        have := nfcGo_normal rest b
        rw [heq] at this ⊢
        exact List.chain'_cons.mpr ⟨hnc, this⟩

/-- Strings in composed normal form are fixed points of NFC. -/
lemma nfc_of_normal : ∀ l : List Nat, NormalNFC l → nfc l = l
  | [], _ => rfl
  | [c], _ => rfl
  | c :: b :: rest, h => by
    have h1 : composable c b = false := (List.chain'_cons.mp h).1
    have h2 : NormalNFC (b :: rest) := (List.chain'_cons.mp h).2
    simp only [composable, Bool.or_eq_false_iff] at h1
    show nfcGo c (b :: rest) = c :: b :: rest
    simp only [nfcGo, h1.1, h1.2, Bool.false_eq_true, if_false]
    have := nfc_of_normal (b :: rest) h2
    simp only [nfc] at this
    rw [this]

/-- NFC is idempotent: normalizing an already-composed string is a no-op. -/
theorem nfc_idem (l : List Nat) : nfc (nfc l) = nfc l := by
  cases l with
  | nil => rfl
  | cons c rest => exact nfc_of_normal _ (nfcGo_normal rest c)

lemma sqlSpace_imp_pySpace (a : Nat) (h : sqlSpace a = true) : pySpace a = true := by
  simp only [sqlSpace, beq_iff_eq] at h
  simp [pySpace, h]

lemma length_dropWhile_le' (p : Nat → Bool) : ∀ l : List Nat,
    (l.dropWhile p).length ≤ l.length
  | [] => le_refl _
  | c :: t => by
    rw [List.dropWhile_cons]
    split
    · exact le_trans (length_dropWhile_le' p t) (Nat.le_succ _)
    · exact le_refl _

lemma dropWhile_dropWhile (p q : Nat → Bool) (h : ∀ a, q a = true → p a = true) :
    ∀ l : List Nat, (l.dropWhile q).dropWhile p = l.dropWhile p
  | [] => rfl
  | c :: t => by
    rw [List.dropWhile_cons]
    split
    · rename_i hq
      rw [dropWhile_dropWhile p q h t, List.dropWhile_cons, if_pos (h c hq)]
    · rfl

lemma dropTrailing_dropTrailing (p q : Nat → Bool)
    (h : ∀ a, q a = true → p a = true) (l : List Nat) :
    dropTrailing p (dropTrailing q l) = dropTrailing p l := by
  simp only [dropTrailing, List.reverse_reverse]
  rw [dropWhile_dropWhile p q h]

lemma dropTrailing_eq_nil_iff (p : Nat → Bool) (l : List Nat) :
    dropTrailing p l = [] ↔ ∀ a ∈ l, p a = true := by
  simp only [dropTrailing, List.reverse_eq_nil_iff, List.dropWhile_eq_nil_iff,
    List.mem_reverse]

lemma dropTrailing_cons (p : Nat → Bool) (c : Nat) (t : List Nat) :
    dropTrailing p (c :: t) =
      if dropTrailing p t = [] then (if p c then [] else [c])
      else c :: dropTrailing p t := by
  simp only [dropTrailing, List.reverse_cons, List.dropWhile_append]
  by_cases hnil : (t.reverse.dropWhile p) = []
  · simp only [hnil, List.isEmpty_nil, if_pos, List.reverse_eq_nil_iff.mpr hnil,
      if_pos rfl, List.dropWhile_cons, List.dropWhile_nil]
    split
    · rfl
    · rfl
  · have : (t.reverse.dropWhile p).isEmpty = false := by
      simpa [List.isEmpty_iff] using hnil
    rw [this]
    simp only [Bool.false_eq_true, if_false, List.reverse_append,
      List.reverse_cons, List.reverse_nil, List.nil_append, List.singleton_append]
    rw [if_neg (by simpa [List.reverse_eq_nil_iff] using hnil)]

lemma dropWhile_dropTrailing (p q : Nat → Bool) : ∀ l : List Nat,
    (dropTrailing q l).dropWhile p = dropTrailing q (l.dropWhile p)
  | [] => rfl
  | c :: t => by
    rw [dropTrailing_cons, List.dropWhile_cons]
    by_cases hp : p c = true
    · rw [if_pos hp]
      have hIH := dropWhile_dropTrailing p q t
      by_cases hnil : dropTrailing q t = []
      · rw [if_pos hnil]
        have hall : ∀ a ∈ t, q a = true := (dropTrailing_eq_nil_iff q t).mp hnil
        have hnil2 : dropTrailing q (t.dropWhile p) = [] := by
          rw [dropTrailing_eq_nil_iff]
          intro a ha
          exact hall a ((List.dropWhile_sublist p).mem ha)
        rw [hnil2]
        split <;> simp [List.dropWhile_cons, hp]
      · rw [if_neg hnil, List.dropWhile_cons, if_pos hp, hIH]
    · have hp' : p c = false := by revert hp; cases p c <;> simp
      rw [if_neg hp]
      by_cases hnil : dropTrailing q t = []
      · rw [if_pos hnil, dropTrailing_cons, if_pos hnil]
        split
        · simp
        · simp [List.dropWhile_cons, hp']
      · rw [if_neg hnil, List.dropWhile_cons, if_neg hp, dropTrailing_cons,
          if_neg hnil]

lemma stripBy_stripBy (p q : Nat → Bool) (h : ∀ a, q a = true → p a = true)
    (l : List Nat) : stripBy p (stripBy q l) = stripBy p l := by
  simp only [stripBy]
  rw [dropWhile_dropTrailing p q, dropWhile_dropWhile p q h,
    dropTrailing_dropTrailing p q h]

/-- Python-stripping after `btrim` is the same as Python-stripping directly. -/
lemma pyStrip_btrim (l : List Nat) : pyStrip (btrim l) = pyStrip l :=
  stripBy_stripBy pySpace sqlSpace sqlSpace_imp_pySpace l

lemma pyStrip_pyStrip (l : List Nat) : pyStrip (pyStrip l) = pyStrip l :=
  stripBy_stripBy pySpace pySpace (fun _ h => h) l

lemma head?_dropWhile (p : Nat → Bool) (l : List Nat) (c : Nat)
    (h : (l.dropWhile p).head? = some c) : p c = false := by
  induction l with
  | nil => simp at h
  | cons d t ih =>
    rw [List.dropWhile_cons] at h
    by_cases hd : p d = true
    · rw [if_pos hd] at h; exact ih h
    · rw [if_neg hd] at h
      simp only [List.head?_cons, Option.some.injEq] at h
      rw [← h]; revert hd; cases p d <;> simp

lemma head?_dropTrailing (p : Nat → Bool) : ∀ (l : List Nat) (c : Nat),
    (dropTrailing p l).head? = some c → l.head? = some c
  | [], c => by simp [dropTrailing]
  | d :: t, c => by
    rw [dropTrailing_cons]
    intro h
    by_cases hnil : dropTrailing p t = []
    · rw [if_pos hnil] at h
      by_cases hd : p d = true
      · rw [if_pos hd] at h; simp at h
      · rw [if_neg hd] at h
        simpa using h
    · rw [if_neg hnil] at h
      simpa using h

lemma stripBy_head (p : Nat → Bool) (l : List Nat) (c : Nat)
    (h : (stripBy p l).head? = some c) : p c = false :=
  head?_dropWhile p l c (head?_dropTrailing p _ c h)

lemma stripBy_getLast (p : Nat → Bool) (l : List Nat) (c : Nat)
    (h : (stripBy p l).getLast? = some c) : p c = false := by
  have : (stripBy p l).getLast? = ((l.dropWhile p).reverse.dropWhile p).head? := by
    simp only [stripBy, dropTrailing, List.getLast?_reverse]
  rw [this] at h
  exact head?_dropWhile p _ c h

/-- Strings whose ends do not satisfy `p` are fixed by `stripBy p`. -/
lemma stripBy_eq_self (p : Nat → Bool) (l : List Nat)
    (h1 : ∀ c, l.head? = some c → p c = false)
    (h2 : ∀ c, l.getLast? = some c → p c = false) : stripBy p l = l := by
  have hdw : l.dropWhile p = l := by
    cases l with
    | nil => rfl
    | cons d t =>
      rw [List.dropWhile_cons, if_neg]
      rw [h1 d rfl]
      simp
  have hdt : dropTrailing p l = l := by
    cases hl : l.getLast? with
    | none =>
      have : l = [] := List.getLast?_eq_none_iff.mp hl
      simp [this, dropTrailing]
    | some c =>
      have hc := h2 c hl
      simp only [dropTrailing]
      have : l.reverse.dropWhile p = l.reverse := by
        cases hr : l.reverse with
        | nil => rfl
        | cons d t =>
          have : l.reverse.head? = some c := by rw [List.head?_reverse]; exact hl
          rw [hr] at this
          simp only [List.head?_cons, Option.some.injEq] at this
          subst this
          rw [List.dropWhile_cons, if_neg (by rw [hc]; simp)]
      rw [this, List.reverse_reverse]
  simp only [stripBy, hdw, hdt]

lemma dropWhile_eq_self_of_length (p : Nat → Bool) (l : List Nat)
    (h : (l.dropWhile p).length = l.length) : l.dropWhile p = l := by
  cases l with
  | nil => rfl
  | cons d t =>
    rw [List.dropWhile_cons]
    by_cases hd : p d = true
    · exfalso
      rw [List.dropWhile_cons, if_pos hd] at h
      have := length_dropWhile_le' p t
      simp only [List.length_cons] at h
      omega
    · rw [if_neg hd]

/-- A fixed point of `stripBy p` has a head not satisfying `p`. -/
lemma head_of_stripBy_self (p : Nat → Bool) (l : List Nat) (c : Nat)
    (hs : stripBy p l = l) (hh : l.head? = some c) : p c = false := by
  apply stripBy_head p l c
  rw [hs]; exact hh

/-- A fixed point of `stripBy p` has a last element not satisfying `p`. -/
lemma getLast_of_stripBy_self (p : Nat → Bool) (l : List Nat) (c : Nat)
    (hs : stripBy p l = l) (hh : l.getLast? = some c) : p c = false := by
  apply stripBy_getLast p l c
  rw [hs]; exact hh

/-! ## Normalization does not disturb trimmed ends -/

lemma pySpace_of_syl {c : Nat} (h : isSyl c = true) : pySpace c = false := by
  simp only [isSyl, Bool.and_eq_true, decide_eq_true_eq] at h
  simp only [pySpace, Bool.or_eq_false_iff, Bool.and_eq_false_iff,
    beq_eq_false_iff_ne, ne_eq, decide_eq_false_iff_not]
  omega

lemma pySpace_of_jamo {c : Nat} (h1 : 4352 ≤ c) (h2 : c ≤ 4546) :
    pySpace c = false := by
  simp only [pySpace, Bool.or_eq_false_iff, Bool.and_eq_false_iff,
    beq_eq_false_iff_ne, ne_eq, decide_eq_false_iff_not]
  omega

/-- The last element of the composer's output is the input's last element or a
syllable. -/
lemma nfcGo_getLast : ∀ (l : List Nat) (pend : Nat),
    ∃ z, (nfcGo pend l).getLast? = some z ∧
      ((pend :: l).getLast? = some z ∨ isSyl z = true)
  | [], pend => ⟨pend, rfl, Or.inl rfl⟩
  | b :: rest, pend => by
    simp only [nfcGo]
    split
    · rename_i h
      simp only [Bool.and_eq_true] at h
      obtain ⟨z, hz, hor⟩ := nfcGo_getLast rest (composeLV pend b)
      refine ⟨z, hz, ?_⟩
      rcases hor with h' | h'
      · cases rest with
        | nil =>
          simp only [List.getLast?_singleton, Option.some.injEq] at h'
          exact Or.inr (h' ▸ isSyl_composeLV h.1 h.2)
        | cons r rs =>
          rw [List.getLast?_cons_cons] at h'
          rw [List.getLast?_cons_cons, List.getLast?_cons_cons]
          exact Or.inl h'
      · exact Or.inr h'
    · split
      · rename_i h
        simp only [Bool.and_eq_true] at h
        obtain ⟨z, hz, hor⟩ := nfcGo_getLast rest (composeT pend b)
        refine ⟨z, hz, ?_⟩
        rcases hor with h' | h'
        · cases rest with
          | nil =>
            simp only [List.getLast?_singleton, Option.some.injEq] at h'
            exact Or.inr (h' ▸ isSyl_composeT h.1 h.2)
          | cons r rs =>
            rw [List.getLast?_cons_cons] at h'
            rw [List.getLast?_cons_cons, List.getLast?_cons_cons]
            exact Or.inl h'
        · exact Or.inr h'
      · obtain ⟨z, hz, hor⟩ := nfcGo_getLast rest b
        obtain ⟨z0, zs, hgo, _⟩ := nfcGo_head rest b
        refine ⟨z, ?_, ?_⟩
        · rw [hgo, List.getLast?_cons_cons, ← hgo]
          exact hz
        · rcases hor with h' | h'
          · rw [List.getLast?_cons_cons]
            exact Or.inl h'
          · exact Or.inr h'

/-- NFC of a Python-stripped string is still Python-stripped. -/
lemma pyStrip_nfc {l : List Nat} (h : pyStrip l = l) :
    pyStrip (nfc l) = nfc l := by
  cases l with
  | nil => rfl
  | cons c t =>
    show stripBy pySpace (nfcGo c t) = nfcGo c t
    apply stripBy_eq_self
    · intro z hz
      obtain ⟨z0, zs, hgo, hor⟩ := nfcGo_head t c
      rw [hgo] at hz
      simp only [List.head?_cons, Option.some.injEq] at hz
      rcases hor with h' | h'
      · rw [← hz, h']
        exact head_of_stripBy_self pySpace _ c h rfl
      · rw [← hz]; exact pySpace_of_syl h'
    · intro z hz
      obtain ⟨z', hz', hor⟩ := nfcGo_getLast t c
      have hzz : z' = z := by
        have := hz'.symm.trans hz
        simpa using this
      subst hzz
      rcases hor with h' | h'
      · exact getLast_of_stripBy_self pySpace _ z' h h'
      · exact pySpace_of_syl h'

lemma decomposeChar_ne_nil (c : Nat) : decomposeChar c ≠ [] := by
  simp only [decomposeChar]
  split
  · split <;> simp
  · simp

lemma nfd_ne_nil (c : Nat) (t : List Nat) : nfd (c :: t) ≠ [] := by
  show decomposeChar c ++ nfd t ≠ []
  simp [decomposeChar_ne_nil c]

/-- The head of a decomposition is the original code point or a leading jamo. -/
lemma decomposeChar_head (c : Nat) :
    ∃ z0 zs, decomposeChar c = z0 :: zs ∧ (z0 = c ∨ (4352 ≤ z0 ∧ z0 ≤ 4370)) := by
  simp only [decomposeChar]
  split
  · rename_i h
    simp only [isSyl, Bool.and_eq_true, decide_eq_true_eq] at h
    split
    · exact ⟨_, _, rfl, Or.inr (by omega)⟩
    · exact ⟨_, _, rfl, Or.inr (by omega)⟩
  · exact ⟨c, [], rfl, Or.inl rfl⟩

/-- The last element of a decomposition is the original code point or a vowel
or trailing jamo. -/
lemma decomposeChar_getLast (c : Nat) :
    ∃ z, (decomposeChar c).getLast? = some z ∧
      (z = c ∨ (4449 ≤ z ∧ z ≤ 4546)) := by
  simp only [decomposeChar]
  split
  · rename_i h
    simp only [isSyl, Bool.and_eq_true, decide_eq_true_eq] at h
    split
    · refine ⟨4449 + (c - 44032) % 588 / 28, ?_, Or.inr ?_⟩
      · rfl
      · omega
    · rename_i ht
      refine ⟨4519 + (c - 44032) % 28, ?_, Or.inr ?_⟩
      · rfl
      · have : (c - 44032) % 28 < 28 := Nat.mod_lt _ (by omega)
        omega
  · exact ⟨c, rfl, Or.inl rfl⟩

/-- The head of an NFD string is the original head or a leading jamo. -/
lemma nfd_head (c : Nat) (t : List Nat) :
    ∃ z0 zs, nfd (c :: t) = z0 :: zs ∧ (z0 = c ∨ (4352 ≤ z0 ∧ z0 ≤ 4370)) := by
  obtain ⟨z0, zs, hd, hor⟩ := decomposeChar_head c
  exact ⟨z0, zs ++ nfd t, by show decomposeChar c ++ nfd t = _; rw [hd]; rfl, hor⟩

/-- The last element of an NFD string is the original last element or a jamo. -/
lemma nfd_getLast : ∀ (l : List Nat), l ≠ [] →
    ∃ z, (nfd l).getLast? = some z ∧
      (l.getLast? = some z ∨ (4449 ≤ z ∧ z ≤ 4546))
  | [], h => absurd rfl h
  | c :: t, _ => by
    cases t with
    | nil =>
      obtain ⟨z, hz, hor⟩ := decomposeChar_getLast c
      refine ⟨z, ?_, ?_⟩
      · show (decomposeChar c ++ nfd []).getLast? = some z
        have hn : nfd [] = [] := rfl
        rw [hn, List.append_nil]
        exact hz
      · rcases hor with h' | h'
        · exact Or.inl (by simp [h'])
        · exact Or.inr h'
    | cons d u =>
      obtain ⟨z, hz, hor⟩ := nfd_getLast (d :: u) (by simp)
      refine ⟨z, ?_, ?_⟩
      · show (decomposeChar c ++ nfd (d :: u)).getLast? = some z
        rw [List.getLast?_append_of_ne_nil _ (nfd_ne_nil d u)]
        exact hz
      · rcases hor with h' | h'
        · exact Or.inl (by rw [List.getLast?_cons_cons]; exact h')
        · exact Or.inr h'

/-- NFD of a Python-stripped string is still Python-stripped. -/
lemma pyStrip_nfd {l : List Nat} (h : pyStrip l = l) :
    pyStrip (nfd l) = nfd l := by
  cases l with
  | nil => rfl
  | cons c t =>
    apply stripBy_eq_self
    · intro z hz
      obtain ⟨z0, zs, hnfd, hor⟩ := nfd_head c t
      rw [hnfd] at hz
      simp only [List.head?_cons, Option.some.injEq] at hz
      subst hz
      rcases hor with h' | h'
      · rw [h']
        exact head_of_stripBy_self pySpace _ c h rfl
      · exact pySpace_of_jamo (by omega) (by omega)
    · intro z hz
      obtain ⟨z', hz', hor⟩ := nfd_getLast (c :: t) (by simp)
      have hzz : z' = z := by
        have := hz'.symm.trans hz
        simpa using this
      subst hzz
      rcases hor with h' | h'
      · exact getLast_of_stripBy_self pySpace _ z' h h'
      · exact pySpace_of_jamo (by omega) (by omega)

lemma pyStrip_lemma_key (r : List Nat) : pyStrip (lemma_key r) = lemma_key r :=
  pyStrip_nfc (pyStrip_pyStrip r)

lemma nfc_lemma_key (r : List Nat) : nfc (lemma_key r) = lemma_key r :=
  nfc_idem _

/-- `lemma_key` is idempotent. -/
lemma lemma_key_idem (r : List Nat) : lemma_key (lemma_key r) = lemma_key r := by
  show nfc (pyStrip (lemma_key r)) = lemma_key r
  rw [pyStrip_lemma_key, nfc_lemma_key]

lemma pyStrip_of_key {k : List Nat} (hk : lemma_key k = k) : pyStrip k = k := by
  conv_lhs => rw [← hk]
  rw [pyStrip_lemma_key, hk]

lemma nfc_of_key {k : List Nat} (hk : lemma_key k = k) : nfc k = k := by
  conv_lhs => rw [← hk]
  rw [nfc_lemma_key, hk]

/-- Re-keying the decomposed form of a lemma key recovers the key itself:
this is what makes candidate retrieval normalization-order-independent. -/
theorem lemma_key_nfd_of_key {k : List Nat} (hk : lemma_key k = k) :
    lemma_key (nfd k) = k := by
  show nfc (pyStrip (nfd k)) = k
  rw [pyStrip_nfd (pyStrip_of_key hk), nfc_nfd, nfc_of_key hk]

lemma mem_addVariant_of_mem {acc : List (List Nat)} {x v : List Nat}
    (h : x ∈ acc) : x ∈ addVariant acc v := by
  unfold addVariant
  split
  · exact List.mem_append_left _ h
  · exact h

lemma self_mem_addVariant {v : List Nat} (acc : List (List Nat))
    (hne : pyStrip v ≠ []) : pyStrip v ∈ addVariant acc v := by
  unfold addVariant
  split
  · exact List.mem_append_right _ (by simp)
  · rename_i h
    rw [not_and_or] at h
    rcases h with h | h
    · exact absurd hne (by simpa using h)
    · simpa using h

lemma mem_variant_foldl {x : List Nat} :
    ∀ (keys : List (List Nat)) (acc : List (List Nat)), x ∈ acc →
      x ∈ keys.foldl
        (fun acc k => addVariant (addVariant (addVariant acc k) (nfd k)) (nfc k))
        acc
  | [], _, h => h
  | _ :: rest, _, h =>
    mem_variant_foldl rest _
      (mem_addVariant_of_mem (mem_addVariant_of_mem (mem_addVariant_of_mem h)))

/-- Every lemma key in the input contributes itself, its NFD form and its NFC
form to the variant list. -/
theorem variants_complete {keys : List (List Nat)} {k : List Nat}
    (hmem : k ∈ keys) (hk : lemma_key k = k) (hne : k ≠ []) :
    k ∈ build_variant_list keys ∧ nfd k ∈ build_variant_list keys ∧
      nfc k ∈ build_variant_list keys := by
  have hstrip : pyStrip k = k := pyStrip_of_key hk
  have hnfc : nfc k = k := nfc_of_key hk
  have hnfd : pyStrip (nfd k) = nfd k := pyStrip_nfd hstrip
  have hnfdne : nfd k ≠ [] := by
    cases k with
    | nil => exact absurd rfl hne
    | cons c t => exact nfd_ne_nil c t
  suffices h : ∀ (keys : List (List Nat)) (acc : List (List Nat)), k ∈ keys →
      k ∈ keys.foldl
        (fun acc k => addVariant (addVariant (addVariant acc k) (nfd k)) (nfc k))
        acc ∧
      nfd k ∈ keys.foldl
        (fun acc k => addVariant (addVariant (addVariant acc k) (nfd k)) (nfc k))
        acc by
    obtain ⟨h1, h2⟩ := h keys [] hmem
    refine ⟨h1, h2, ?_⟩
    show nfc k ∈ build_variant_list keys
    rw [hnfc]
    exact h1
  intro keys'
  induction keys' with
  | nil => intro acc h; simp at h
  | cons key rest ih =>
    intro acc hmem'
    simp only [List.foldl_cons]
    rcases List.mem_cons.mp hmem' with heq | htail
    · subst heq
      constructor
      · apply mem_variant_foldl
        apply mem_addVariant_of_mem
        apply mem_addVariant_of_mem
        have hne' : pyStrip k ≠ [] := by rw [hstrip]; exact hne
        have := self_mem_addVariant (v := k) acc hne'
        rwa [hstrip] at this
      · apply mem_variant_foldl
        apply mem_addVariant_of_mem
        have hnfdne' : pyStrip (nfd k) ≠ [] := by rw [hnfd]; exact hnfdne
        have := self_mem_addVariant (v := nfd k) (addVariant acc k) hnfdne'
        rwa [hnfd] at this
    · exact ih _ htail

lemma addVariant_nodup {acc : List (List Nat)} {v : List Nat}
    (h : acc.Nodup) : (addVariant acc v).Nodup := by
  unfold addVariant
  split
  · rename_i hcond
    simpa [List.nodup_append] using ⟨h, hcond.2⟩
  · exact h

lemma addVariant_ne_nil {acc : List (List Nat)} {v : List Nat}
    (h : [] ∉ acc) : [] ∉ addVariant acc v := by
  unfold addVariant
  split
  · rename_i hcond
    simp only [List.mem_append, List.mem_singleton]
    rintro (h' | h')
    · exact h h'
    · exact hcond.1 h'.symm
  · exact h

/-- The variant list has no duplicates and no empty variants. -/
theorem variants_nodup_ne_nil (keys : List (List Nat)) :
    (build_variant_list keys).Nodup ∧ [] ∉ build_variant_list keys := by
  suffices h : ∀ (ks : List (List Nat)) (acc : List (List Nat)),
      acc.Nodup → [] ∉ acc →
      (ks.foldl
        (fun acc k => addVariant (addVariant (addVariant acc k) (nfd k)) (nfc k))
        acc).Nodup ∧
      [] ∉ ks.foldl
        (fun acc k => addVariant (addVariant (addVariant acc k) (nfd k)) (nfc k))
        acc by
    exact h keys [] (by simp) (by simp)
  intro ks
  induction ks with
  | nil => intro acc h1 h2; exact ⟨h1, h2⟩
  | cons key rest ih =>
    intro acc h1 h2
    exact ih _ (addVariant_nodup (addVariant_nodup (addVariant_nodup h1)))
      (addVariant_ne_nil (addVariant_ne_nil (addVariant_ne_nil h2)))

lemma alookup_dictInsert_self {α β : Type} [DecidableEq α] :
    ∀ (m : List (α × β)) (k : α) (v : β),
      alookup (dictInsert m k v) k = some v
  | [], k, v => by rw [dictInsert, alookup, if_pos rfl]
  | (k', w) :: rest, k, v => by
    rw [dictInsert]
    by_cases hk : k' = k
    · rw [if_pos hk, alookup, if_pos rfl]
    · rw [if_neg hk, alookup, if_neg hk]
      exact alookup_dictInsert_self rest k v

lemma alookup_dictInsert_ne {α β : Type} [DecidableEq α] :
    ∀ (m : List (α × β)) (k k' : α) (v : β), k' ≠ k →
      alookup (dictInsert m k v) k' = alookup m k'
  | [], k, k', v, hk => by
    rw [dictInsert]
    show (if k = k' then some v else alookup [] k') = alookup ([] : List (α × β)) k'
    rw [if_neg (fun h => hk h.symm)]
  | (k'', w) :: rest, k, k', v, hk => by
    rw [dictInsert]
    by_cases h2 : k'' = k
    · rw [if_pos h2, alookup, if_neg (fun h => hk h.symm), alookup, h2,
        if_neg (fun h => hk h.symm)]
    · rw [if_neg h2, alookup, alookup]
      split
      · rfl
      · exact alookup_dictInsert_ne rest k k' v hk

lemma alookup_bucketAdd_self (m : List (List Nat × List Candidate))
    (k : List Nat) (c : Candidate) :
    alookup (bucketAdd m k c) k = some (((alookup m k).getD []) ++ [c]) :=
  alookup_dictInsert_self m k _

lemma alookup_bucketAdd_ne (m : List (List Nat × List Candidate))
    (k k' : List Nat) (c : Candidate) (hk : k' ≠ k) :
    alookup (bucketAdd m k c) k' = alookup m k' :=
  alookup_dictInsert_ne m k k' _ hk

lemma mem_bucket_foldl (k : List Nat) (c : Candidate) :
    ∀ (rows : List KrdictRow) (m : List (List Nat × List Candidate)),
      c ∈ (alookup m k).getD [] →
      c ∈ (alookup
        (rows.foldl (fun m r => bucketAdd m (rowKey r) (rowCandidate r)) m)
        k).getD []
  | [], _, h => h
  | r :: rest, m, h => by
    simp only [List.foldl_cons]
    apply mem_bucket_foldl k c rest
    by_cases hk : rowKey r = k
    · rw [← hk] at h ⊢
      rw [alookup_bucketAdd_self]
      simp only [Option.getD_some]
      exact List.mem_append_left _ h
    · rwa [alookup_bucketAdd_ne _ _ _ _ (fun h' => hk h'.symm)]

lemma row_in_bucket (q : KrdictRow) :
    ∀ (rows : List KrdictRow) (m : List (List Nat × List Candidate)),
      q ∈ rows →
      rowCandidate q ∈ (alookup
        (rows.foldl (fun m r => bucketAdd m (rowKey r) (rowCandidate r)) m)
        (rowKey q)).getD []
  | [], _, h => by simp at h
  | r :: rest, m, h => by
    simp only [List.foldl_cons]
    rcases List.mem_cons.mp h with heq | htail
    · subst heq
      apply mem_bucket_foldl
      rw [alookup_bucketAdd_self]
      simp
    · exact row_in_bucket q rest _ htail

/-- A matching table row's candidate lands in the bucket of its re-normalized
headword key. -/
lemma collect_complete {table : List KrdictRow} {variants : List (List Nat)}
    {q : KrdictRow} (hq : q ∈ table) (hm : sqlMatches variants q = true) :
    rowCandidate q ∈ (alookup (collectCandidates table variants) (rowKey q)).getD [] := by
  unfold collectCandidates
  exact row_in_bucket q _ [] (List.mem_filter.mpr ⟨hq, hm⟩)

lemma sortBuckets_alookup :
    ∀ {m m' : List (List Nat × List Candidate)}, sortBuckets m = some m' →
      ∀ (k : List Nat) (l : List Candidate), alookup m k = some l →
        ∃ l', alookup m' k = some l' ∧ ∀ c, c ∈ l' ↔ c ∈ l := by
  intro m
  induction m with
  | nil => intro m' h k l hl; simp [alookup] at hl
  | cons p rest ih =>
    intro m' h k l hl
    obtain ⟨k0, l0⟩ := p
    rw [sortBuckets] at h
    cases hsort : pySortCandidates l0 with
    | none => rw [hsort] at h; simp at h
    | some l0' =>
      cases hrest : sortBuckets rest with
      | none => rw [hsort, hrest] at h; simp at h
      | some rest' =>
        rw [hsort, hrest] at h
        simp only [Option.some.injEq] at h
        subst h
        rw [alookup] at hl
        by_cases hk : k0 = k
        · rw [if_pos hk] at hl
          simp only [Option.some.injEq] at hl
          subst hl
          refine ⟨l0', by rw [alookup, if_pos hk], ?_⟩
          intro c
          unfold pySortCandidates at hsort
          split at hsort
          · simp at hsort
          · simp only [Option.some.injEq] at hsort
            subst hsort
            exact List.mem_insertionSort candLe
        · rw [if_neg hk] at hl
          obtain ⟨l', hl', hmem⟩ := ih hrest k l hl
          exact ⟨l', by rw [alookup, if_neg hk]; exact hl', hmem⟩

/-! ## Validator lemmas -/

lemma validateSenses_ok (vid : String) (cand_ids : List String) :
    ∀ (ss : List SenseOut) (used : List String) (outs : List SenseOut),
      validateSenses vid cand_ids ss used = .ok outs →
      outs.map (·.krdict_id) = ss.map (·.krdict_id) ∧
      (ss.map (·.krdict_id)).Nodup ∧
      ∀ kid ∈ ss.map (·.krdict_id), kid ∈ cand_ids ∧ kid ∉ used
  | [], used, outs => by
    intro h
    rw [validateSenses] at h
    injection h with h
    subst h
    exact ⟨rfl, List.nodup_nil, by simp⟩
  | s :: rest, used, outs => by
    intro h
    rw [validateSenses] at h
    split at h
    · exact absurd h (by simp)
    · split at h
      · exact absurd h (by simp)
      · rename_i hin hused
        split at h
        · exact absurd h (by simp)
        · rename_i tail htail
          injection h with h
          subst h
          obtain ⟨hmap, hnodup, hmem⟩ :=
            validateSenses_ok vid cand_ids rest (s.krdict_id :: used) tail htail
          have hin' : s.krdict_id ∈ cand_ids := by
            by_contra hc
            exact hin hc
          refine ⟨?_, ?_, ?_⟩
          · simp only [List.map_cons]
            rw [hmap]
          · rw [List.map_cons, List.nodup_cons]
            refine ⟨?_, hnodup⟩
            intro hk
            exact (hmem _ hk).2 (List.mem_cons_self _ _)
          · intro kid hkid
            rcases List.mem_cons.mp hkid with heq | htl
            · subst heq
              exact ⟨hin', hused⟩
            · obtain ⟨h1, h2⟩ := hmem _ htl
              exact ⟨h1, fun hc => h2 (List.mem_cons_of_mem _ hc)⟩

lemma validateLoop_good (batch : List TeachingRow) (cget : List Nat → List Candidate) :
    ∀ (rs : List ResultEntry) (m mapping : List (String × List SenseOut)),
      validateLoop batch cget rs m = .ok mapping →
      (∀ vid senses, alookup m vid = some senses →
        ∃ row, alookup (rowById batch) vid = some row ∧
          (senses.map (·.krdict_id)).Nodup ∧
          ∀ s ∈ senses, s.krdict_id ∈ (cget row.lemma_key).map (·.krdict_id)) →
      ∀ vid senses, alookup mapping vid = some senses →
        ∃ row, alookup (rowById batch) vid = some row ∧
          (senses.map (·.krdict_id)).Nodup ∧
          ∀ s ∈ senses, s.krdict_id ∈ (cget row.lemma_key).map (·.krdict_id)
  | [], m, mapping => by
    intro h hGood
    rw [validateLoop] at h
    injection h with h
    subst h
    exact hGood
  | entry :: rest, m, mapping => by
    intro h hGood
    rw [validateLoop] at h
    split at h
    · exact absurd h (by simp)
    · split at h
      · exact absurd h (by simp)
      · rename_i row hrow
        split at h
        · exact absurd h (by simp)
        · split at h
          · exact absurd h (by simp)
          · rename_i outs houts
            refine validateLoop_good batch cget rest _ mapping h ?_
            intro vid senses hvs
            by_cases hveq : vid = entry.vocab_id
            · subst hveq
              rw [alookup_dictInsert_self] at hvs
              injection hvs with hvs
              subst hvs
              obtain ⟨hmap, hnodup, hmem⟩ :=
                validateSenses_ok _ _ _ _ _ houts
              refine ⟨row, hrow, by rw [hmap]; exact hnodup, ?_⟩
              intro s hs
              have hks : s.krdict_id ∈ outs.map (·.krdict_id) :=
                List.mem_map_of_mem _ hs
              rw [hmap] at hks
              exact (hmem _ hks).1
            · rw [alookup_dictInsert_ne _ _ _ _ hveq] at hvs
              exact hGood vid senses hvs

lemma validateLoop_entries (batch : List TeachingRow)
    (cget : List Nat → List Candidate) :
    ∀ (rs : List ResultEntry) (m mapping : List (String × List SenseOut)),
      validateLoop batch cget rs m = .ok mapping →
      ∀ e ∈ rs, e.vocab_id ∈ batch.map (·.vocab_id) ∧ e.senses ≠ []
  | [], _, _ => by intro _ e he; simp at he
  | entry :: rest, m, mapping => by
    intro h e he
    rw [validateLoop] at h
    split at h
    · exact absurd h (by simp)
    · rename_i hmem
      split at h
      · exact absurd h (by simp)
      · split at h
        · exact absurd h (by simp)
        · rename_i hsen
          split at h
          · exact absurd h (by simp)
          · rcases List.mem_cons.mp he with heq | htl
            · subst heq
              exact ⟨by simpa using hmem, hsen⟩
            · exact validateLoop_entries batch cget rest _ mapping h e htl

lemma validateSenses_not_missing (vid : String) (cand_ids : List String) :
    ∀ (ss : List SenseOut) (used : List String) (e : VErr),
      validateSenses vid cand_ids ss used = .error e →
      ∀ ids tr, e ≠ .missingIds ids tr
  | [], _, _ => by intro h; rw [validateSenses] at h; exact absurd h (by simp)
  | s :: rest, used, e => by
    intro h ids tr
    rw [validateSenses] at h
    split at h
    · injection h with h; subst h; simp
    · split at h
      · injection h with h; subst h; simp
      · split at h
        · rename_i e' he'
          injection h with h
          subst h
          exact validateSenses_not_missing vid cand_ids rest _ e' he' ids tr
        · exact absurd h (by simp)

lemma validateLoop_not_missing (batch : List TeachingRow)
    (cget : List Nat → List Candidate) :
    ∀ (rs : List ResultEntry) (m : List (String × List SenseOut)) (e : VErr),
      validateLoop batch cget rs m = .error e →
      ∀ ids tr, e ≠ .missingIds ids tr
  | [], _, _ => by intro h; rw [validateLoop] at h; exact absurd h (by simp)
  | entry :: rest, m, e => by
    intro h ids tr
    rw [validateLoop] at h
    split at h
    · injection h with h; subst h; simp
    · split at h
      · injection h with h; subst h; simp
      · split at h
        · injection h with h; subst h; simp
        · split at h
          · rename_i e' he'
            injection h with h
            subst h
            exact validateSenses_not_missing _ _ _ _ e' he' ids tr
          · exact validateLoop_not_missing batch cget rest _ e h ids tr

lemma validate_ok_loop {out : ModelOut} {batch : List TeachingRow}
    {cget : List Nat → List Candidate} {mapping : List (String × List SenseOut)}
    (h : validate_model_output out batch cget = .ok mapping) :
    validateLoop batch cget out.results [] = .ok mapping := by
  unfold validate_model_output at h
  split at h
  · exact absurd h (by simp)
  · rename_i m hm
    split at h
    · injection h with h
      subst h
      exact hm
    · exact absurd h (by simp)

lemma validate_ok_covers {out : ModelOut} {batch : List TeachingRow}
    {cget : List Nat → List Candidate} {mapping : List (String × List SenseOut)}
    (h : validate_model_output out batch cget = .ok mapping) :
    ∀ r ∈ batch, (alookup mapping r.vocab_id).isSome = true := by
  unfold validate_model_output at h
  split at h
  · exact absurd h (by simp)
  · rename_i m hm
    split at h
    · rename_i hmiss
      injection h with h
      subst h
      rw [missingIdsOf] at hmiss
      have hfil : batch.filter (fun r => (alookup m r.vocab_id).isNone) = [] :=
        List.map_eq_nil_iff.mp hmiss
      intro r hr
      have := List.filter_eq_nil_iff.mp hfil r hr
      cases halo : alookup m r.vocab_id with
      | none => rw [halo] at this; simp at this
      | some _ => simp
    · exact absurd h (by simp)

lemma validate_missing_bounded {out : ModelOut} {batch : List TeachingRow}
    {cget : List Nat → List Candidate} {ids : List String} {tr : Bool}
    (h : validate_model_output out batch cget = .error (.missingIds ids tr)) :
    ids.length ≤ 10 := by
  unfold validate_model_output at h
  split at h
  · rename_i e he
    injection h with h
    exact absurd h (validateLoop_not_missing batch cget out.results [] e he ids tr)
  · rename_i m hm
    split at h
    · exact absurd h (by simp)
    · injection h with h
      injection h with h1 h2
      rw [← h1, List.length_take]
      exact min_le_left _ _

/-! ## Writer lemmas -/

lemma update_teaching_ids (db : DB) (vocab_id kid : String) (now : Nat) :
    (update_canonical_ref db vocab_id kid now).teaching.map (·.id) =
      db.teaching.map (·.id) := by
  unfold update_canonical_ref
  rw [List.map_map]
  apply List.map_congr_left
  intro r _
  simp only [Function.comp_apply]
  split <;> rfl

lemma update_glosses (db : DB) (vocab_id kid : String) (now : Nat) :
    (update_canonical_ref db vocab_id kid now).glosses = db.glosses := rfl

lemma upsert_teaching (db : DB) (vocab_id text : String) :
    (upsert_primary_en_gloss db vocab_id text).teaching = db.teaching := by
  unfold upsert_primary_en_gloss
  split <;> rfl

lemma applyExtras_ids (idGen : Nat → String) (now : Nat) (src : TeachingRow) :
    ∀ (ss : List SenseOut) (db : DB) (ctr : Nat) (db2 : DB) (ctr2 : Nat)
      (recs : List InsertRec),
      applyExtras idGen now src db ctr ss = .ok (db2, ctr2, recs) →
      db2.teaching.map (·.id) =
        db.teaching.map (·.id) ++ recs.map (·.new_vocab_id)
  | [], db, ctr, db2, ctr2, recs => by
    intro h
    rw [applyExtras] at h
    simp only [Except.ok.injEq, Prod.mk.injEq] at h
    obtain ⟨h1, _, h3⟩ := h
    subst h1
    subst h3
    simp
  | s :: rest, db, ctr, db2, ctr2, recs => by
    intro h
    rw [applyExtras] at h
    cases hins : insert_new_teaching_vocab_row db src s.krdict_id (idGen ctr) now with
    | error e => rw [hins] at h; exact absurd h (by simp)
    | ok db1 =>
      rw [hins] at h
      simp only [] at h
      cases hrec : applyExtras idGen now src
          (upsert_primary_en_gloss db1 (idGen ctr) s.gloss_en) (ctr + 1) rest with
      | error e => rw [hrec] at h; exact absurd h (by simp)
      | ok trip =>
        obtain ⟨db3, ctr3, recs'⟩ := trip
        rw [hrec] at h
        simp only [Except.ok.injEq, Prod.mk.injEq] at h
        obtain ⟨h1, _, h3⟩ := h
        subst h1
        subst h3
        have hIH := applyExtras_ids idGen now src rest _ _ _ _ _ hrec
        have hdb1 : db1.teaching.map (·.id) =
            db.teaching.map (·.id) ++ [idGen ctr] := by
          unfold insert_new_teaching_vocab_row at hins
          split at hins
          · exact absurd hins (by simp)
          · injection hins with hins
            subst hins
            simp
        rw [hIH, upsert_teaching, hdb1, List.map_cons, List.append_assoc,
          List.singleton_append]

lemma applyRows_ok_ids (dryRun : Bool) (idGen : Nat → String) (now : Nat)
    (mapping : List (String × List SenseOut)) :
    ∀ (batch : List TeachingRow) (db : DB) (ctr : Nat) (dbf : DB) (ctrf : Nat)
      (acts : List Action),
      applyRows dryRun idGen now mapping db ctr batch = .ok (dbf, ctrf, acts) →
      dbf.teaching.map (·.id) =
        db.teaching.map (·.id) ++ acts.flatMap Action.insertIds ∧
      acts.map Action.vid = batch.map (·.vocab_id)
  | [], db, ctr, dbf, ctrf, acts => by
    intro h
    rw [applyRows] at h
    simp only [Except.ok.injEq, Prod.mk.injEq] at h
    obtain ⟨h1, _, h3⟩ := h
    subst h1
    subst h3
    simp
  | r :: rest, db, ctr, dbf, ctrf, acts => by
    intro h
    rw [applyRows] at h
    cases hsen : alookup mapping r.vocab_id with
    | none => rw [hsen] at h; exact absurd h (by simp)
    | some senses =>
      rw [hsen] at h
      rcases senses with _ | ⟨s0, _ | ⟨s1, srest⟩⟩
      · exact absurd h (by simp)
      · -- single sense
        simp only [] at h
        cases hrest : applyRows dryRun idGen now mapping
            (if dryRun then db else
              upsert_primary_en_gloss
                (update_canonical_ref db r.vocab_id s0.krdict_id now)
                r.vocab_id s0.gloss_en) ctr rest with
        | error e => rw [hrest] at h; exact absurd h (by simp)
        | ok trip =>
          obtain ⟨db3, ctr3, acts'⟩ := trip
          rw [hrest] at h
          simp only [Except.ok.injEq, Prod.mk.injEq] at h
          obtain ⟨h1, _, h3⟩ := h
          subst h1
          subst h3
          obtain ⟨hids, hvids⟩ :=
            applyRows_ok_ids dryRun idGen now mapping rest _ _ _ _ _ hrest
          constructor
          · rw [hids]
            have hsame : ((if dryRun then db else
                upsert_primary_en_gloss
                  (update_canonical_ref db r.vocab_id s0.krdict_id now)
                  r.vocab_id s0.gloss_en) : DB).teaching.map (·.id) =
                db.teaching.map (·.id) := by
              split
              · rfl
              · rw [upsert_teaching, update_teaching_ids]
            rw [hsame]
            simp [Action.insertIds]
          · simp [Action.vid, hvids]
      · -- split senses
        simp only [] at h
        by_cases hdry : dryRun = true
        · rw [if_pos hdry] at h
          cases hrest : applyRows dryRun idGen now mapping db ctr rest with
          | error e => rw [hrest] at h; exact absurd h (by simp)
          | ok trip =>
            obtain ⟨db3, ctr3, acts'⟩ := trip
            rw [hrest] at h
            simp only [Except.ok.injEq, Prod.mk.injEq] at h
            obtain ⟨h1, _, h3⟩ := h
            subst h1
            subst h3
            obtain ⟨hids, hvids⟩ :=
              applyRows_ok_ids dryRun idGen now mapping rest _ _ _ _ _ hrest
            constructor
            · rw [hids]
              simp [Action.insertIds]
            · simp [Action.vid, hvids]
        · rw [if_neg hdry] at h
          cases hextras : applyExtras idGen now r
              (upsert_primary_en_gloss
                (update_canonical_ref db r.vocab_id s0.krdict_id now)
                r.vocab_id s0.gloss_en) ctr (s1 :: srest) with
          | error e => rw [hextras] at h; exact absurd h (by simp)
          | ok trip =>
            obtain ⟨db2, ctr2, inserts⟩ := trip
            rw [hextras] at h
            simp only [] at h
            cases hrest : applyRows dryRun idGen now mapping db2 ctr2 rest with
            | error e => rw [hrest] at h; exact absurd h (by simp)
            | ok trip2 =>
              obtain ⟨db3, ctr3, acts'⟩ := trip2
              rw [hrest] at h
              simp only [Except.ok.injEq, Prod.mk.injEq] at h
              obtain ⟨h1, _, h3⟩ := h
              subst h1
              subst h3
              obtain ⟨hids, hvids⟩ :=
                applyRows_ok_ids dryRun idGen now mapping rest _ _ _ _ _ hrest
              have hext := applyExtras_ids idGen now r _ _ _ _ _ _ hextras
              constructor
              · rw [hids, hext, upsert_teaching, update_teaching_ids]
                simp only [Action.insertIds, List.flatMap_cons, List.append_assoc]
              · simp [Action.vid, hvids]

lemma applyRows_dry (idGen : Nat → String) (now : Nat)
    (mapping : List (String × List SenseOut)) :
    ∀ (batch : List TeachingRow) (db : DB) (ctr : Nat) (dbf : DB) (ctrf : Nat)
      (acts : List Action),
      applyRows true idGen now mapping db ctr batch = .ok (dbf, ctrf, acts) →
      dbf = db ∧ ctrf = ctr ∧ ∀ a ∈ acts, a.insertIds = []
  | [], db, ctr, dbf, ctrf, acts => by
    intro h
    rw [applyRows] at h
    simp only [Except.ok.injEq, Prod.mk.injEq] at h
    obtain ⟨h1, h2, h3⟩ := h
    subst h1
    subst h3
    exact ⟨rfl, h2.symm, by simp⟩
  | r :: rest, db, ctr, dbf, ctrf, acts => by
    intro h
    rw [applyRows] at h
    cases hsen : alookup mapping r.vocab_id with
    | none => rw [hsen] at h; exact absurd h (by simp)
    | some senses =>
      rw [hsen] at h
      rcases senses with _ | ⟨s0, _ | ⟨s1, srest⟩⟩
      · exact absurd h (by simp)
      · simp only [] at h
        rw [if_pos trivial] at h
        cases hrest : applyRows true idGen now mapping db ctr rest with
        | error e => rw [hrest] at h; exact absurd h (by simp)
        | ok trip =>
          obtain ⟨db3, ctr3, acts'⟩ := trip
          rw [hrest] at h
          simp only [Except.ok.injEq, Prod.mk.injEq] at h
          obtain ⟨h1, h2, h3⟩ := h
          subst h1
          subst h3
          obtain ⟨hdb, hctr, hacts⟩ :=
            applyRows_dry idGen now mapping rest _ _ _ _ _ hrest
          refine ⟨hdb, h2 ▸ hctr, ?_⟩
          intro a ha
          rcases List.mem_cons.mp ha with heq | htl
          · subst heq; rfl
          · exact hacts a htl
      · simp only [] at h
        rw [if_pos trivial] at h
        cases hrest : applyRows true idGen now mapping db ctr rest with
        | error e => rw [hrest] at h; exact absurd h (by simp)
        | ok trip =>
          obtain ⟨db3, ctr3, acts'⟩ := trip
          rw [hrest] at h
          simp only [Except.ok.injEq, Prod.mk.injEq] at h
          obtain ⟨h1, h2, h3⟩ := h
          subst h1
          subst h3
          obtain ⟨hdb, hctr, hacts⟩ :=
            applyRows_dry idGen now mapping rest _ _ _ _ _ hrest
          refine ⟨hdb, h2 ▸ hctr, ?_⟩
          intro a ha
          rcases List.mem_cons.mp ha with heq | htl
          · subst heq; rfl
          · exact hacts a htl

lemma idsFrom_zero (idGen : Nat → String) (ctr : Nat) :
    idsFrom idGen ctr 0 = [] := rfl

lemma idsFrom_succ (idGen : Nat → String) (ctr n : Nat) :
    idsFrom idGen ctr (n + 1) = idGen ctr :: idsFrom idGen (ctr + 1) n := by
  unfold idsFrom
  rw [List.range_succ_eq_map, List.map_cons, List.map_map, Nat.add_zero]
  congr 1
  apply List.map_congr_left
  intro i _
  simp only [Function.comp_apply]
  congr 1
  omega

lemma idsFrom_length (idGen : Nat → String) (ctr n : Nat) :
    (idsFrom idGen ctr n).length = n := by
  unfold idsFrom
  rw [List.length_map, List.length_range]

lemma applyExtras_full (idGen : Nat → String) (now : Nat) (src : TeachingRow) :
    ∀ (ss : List SenseOut) (db : DB) (ctr : Nat),
      (∀ i, i < ss.length → ∀ t ∈ db.teaching, t.id ≠ idGen (ctr + i)) →
      (∀ i, i < ss.length → ∀ g ∈ db.glosses, g.vocab_id ≠ idGen (ctr + i)) →
      (∀ i j, i < ss.length → j < ss.length →
        idGen (ctr + i) = idGen (ctr + j) → i = j) →
      applyExtras idGen now src db ctr ss =
        .ok ({ teaching := db.teaching ++
                 (ss.zip (idsFrom idGen ctr ss.length)).map
                   (fun p => extraRow src p.1 p.2 now),
               glosses := db.glosses ++
                 (ss.zip (idsFrom idGen ctr ss.length)).map
                   (fun p => ⟨p.2, "en", p.1.gloss_en, true⟩) },
             ctr + ss.length,
             (ss.zip (idsFrom idGen ctr ss.length)).map
               (fun p => ⟨p.2, p.1.krdict_id, p.1.gloss_en, p.1.sense_label⟩))
  | [], db, ctr, _, _, _ => by
    rw [applyExtras]
    simp [idsFrom_zero]
  | s :: rest, db, ctr, hT, hG, hinj => by
    rw [applyExtras]
    have hfresh0 : ∀ t ∈ db.teaching, t.id ≠ idGen ctr := by
      intro t ht
      have := hT 0 (by simp) t ht
      simpa using this
    have hins : insert_new_teaching_vocab_row db src s.krdict_id (idGen ctr) now =
        .ok { db with teaching := db.teaching ++ [extraRow src s (idGen ctr) now] } := by
      unfold insert_new_teaching_vocab_row
      rw [if_neg]
      · rfl
      · simp only [List.any_eq_true, decide_eq_true_eq, not_exists, not_and]
        intro t ht
        exact hfresh0 t ht
    rw [hins]
    simp only []
    have hgfresh0 : db.glosses.any (isPrimaryEn (idGen ctr)) = false := by
      simp only [List.any_eq_false]
      intro g hg
      have hne := hG 0 (by simp) g hg
      rw [Nat.add_zero] at hne
      intro hc
      simp only [isPrimaryEn, Bool.and_eq_true, decide_eq_true_eq] at hc
      exact hne hc.1.1
    have hup : upsert_primary_en_gloss
        { db with teaching := db.teaching ++ [extraRow src s (idGen ctr) now] }
        (idGen ctr) s.gloss_en =
        { teaching := db.teaching ++ [extraRow src s (idGen ctr) now],
          glosses := db.glosses ++ [⟨idGen ctr, "en", s.gloss_en, true⟩] } := by
      unfold upsert_primary_en_gloss
      rw [if_neg]
      simp only [hgfresh0]
      simp
    rw [hup]
    have hrec := applyExtras_full idGen now src rest
      { teaching := db.teaching ++ [extraRow src s (idGen ctr) now],
        glosses := db.glosses ++ [⟨idGen ctr, "en", s.gloss_en, true⟩] }
      (ctr + 1)
      (by
        intro i hi t ht
        rcases List.mem_append.mp ht with hold | hnew
        · have := hT (i + 1) (by simpa using Nat.succ_lt_succ hi) t hold
          intro hc
          apply this
          rw [hc]
          congr 1
          omega
        · simp only [List.mem_singleton] at hnew
          subst hnew
          show idGen ctr ≠ idGen (ctr + 1 + i)
          intro hc
          have := hinj 0 (i + 1) (by simp) (by simpa using Nat.succ_lt_succ hi)
            (by
              have e : ctr + (i + 1) = ctr + 1 + i := by omega
              rw [Nat.add_zero, e]
              exact hc)
          simp at this)
      (by
        intro i hi g hg
        rcases List.mem_append.mp hg with hold | hnew
        · have := hG (i + 1) (by simpa using Nat.succ_lt_succ hi) g hold
          intro hc
          apply this
          rw [hc]
          congr 1
          omega
        · simp only [List.mem_singleton] at hnew
          subst hnew
          show idGen ctr ≠ idGen (ctr + 1 + i)
          intro hc
          have := hinj 0 (i + 1) (by simp) (by simpa using Nat.succ_lt_succ hi)
            (by
              have e : ctr + (i + 1) = ctr + 1 + i := by omega
              rw [Nat.add_zero, e]
              exact hc)
          simp at this)
      (by
        intro i j hi hj hc
        have := hinj (i + 1) (j + 1) (by simpa using Nat.succ_lt_succ hi)
          (by simpa using Nat.succ_lt_succ hj)
          (by
            have e1 : ctr + (i + 1) = ctr + 1 + i := by omega
            have e2 : ctr + (j + 1) = ctr + 1 + j := by omega
            rw [e1, e2]; exact hc)
        omega)
    rw [hrec]
    simp only [Except.ok.injEq, Prod.mk.injEq]
    rw [List.length_cons, idsFrom_succ]
    refine ⟨?_, by omega, ?_⟩
    · show DB.mk _ _ = DB.mk _ _
      simp only [List.zip_cons_cons, List.map_cons, List.append_assoc,
        List.singleton_append, DB.mk.injEq]
    · simp only [List.zip_cons_cons, List.map_cons]

lemma upsert_gloss_spec (db : DB) (v txt : String) :
    (∀ g ∈ (upsert_primary_en_gloss db v txt).glosses,
      isPrimaryEn v g = true → g.text = txt) ∧
    (∃ g ∈ (upsert_primary_en_gloss db v txt).glosses,
      isPrimaryEn v g = true ∧ g.text = txt) := by
  unfold upsert_primary_en_gloss
  split
  · rename_i hany
    constructor
    · intro g hg hpg
      obtain ⟨g', hg', hmapg⟩ := List.mem_map.mp hg
      by_cases hp : isPrimaryEn v g' = true
      · rw [if_pos hp] at hmapg
        rw [← hmapg]
      · rw [if_neg hp] at hmapg
        rw [← hmapg] at hpg
        exact absurd hpg hp
    · obtain ⟨g', hg', hp⟩ := List.any_eq_true.mp hany
      refine ⟨{g' with text := txt}, ?_, ?_, rfl⟩
      · exact List.mem_map.mpr ⟨g', hg', by rw [if_pos hp]⟩
      · exact hp
  · constructor
    · rename_i hany
      intro g hg hpg
      rcases List.mem_append.mp hg with hold | hnew
      · exfalso
        have : db.glosses.any (isPrimaryEn v) = true :=
          List.any_eq_true.mpr ⟨g, hold, hpg⟩
        exact hany this
      · simp only [List.mem_singleton] at hnew
        rw [hnew]
    · refine ⟨⟨v, "en", txt, true⟩, List.mem_append_right _ (by simp), ?_, rfl⟩
      simp [isPrimaryEn]

lemma upsert_gloss_ids (db : DB) (v txt : String) :
    ∀ g ∈ (upsert_primary_en_gloss db v txt).glosses,
      g.vocab_id = v ∨ ∃ g' ∈ db.glosses, g.vocab_id = g'.vocab_id := by
  unfold upsert_primary_en_gloss
  split
  · intro g hg
    obtain ⟨g', hg', hmapg⟩ := List.mem_map.mp hg
    right
    refine ⟨g', hg', ?_⟩
    rw [← hmapg]
    split <;> rfl
  · intro g hg
    rcases List.mem_append.mp hg with hold | hnew
    · exact Or.inr ⟨g, hold, rfl⟩
    · simp only [List.mem_singleton] at hnew
      rw [hnew]
      exact Or.inl rfl

lemma update_teaching_mem (db : DB) (vid kid : String) (now : Nat) :
    ∀ t ∈ (update_canonical_ref db vid kid now).teaching,
      ∃ t' ∈ db.teaching, t.id = t'.id := by
  unfold update_canonical_ref
  intro t ht
  obtain ⟨t', ht', hmapt⟩ := List.mem_map.mp ht
  refine ⟨t', ht', ?_⟩
  rw [← hmapt]
  split <;> rfl

/-- One non-dry-run row applied: the existing row is updated in place for
the first sense and one clone per remaining sense is appended, each with its
own primary gloss. -/
lemma applyRows_one (idGen : Nat → String) (now : Nat)
    (mapping : List (String × List SenseOut)) (db : DB) (ctr : Nat)
    (r : TeachingRow) (s0 : SenseOut) (rest : List SenseOut)
    (hmap : alookup mapping r.vocab_id = some (s0 :: rest))
    (hT : ∀ i, i < rest.length → ∀ t ∈ db.teaching, t.id ≠ idGen (ctr + i))
    (hG : ∀ i, i < rest.length → ∀ g ∈ db.glosses, g.vocab_id ≠ idGen (ctr + i))
    (hGv : ∀ i, i < rest.length → idGen (ctr + i) ≠ r.vocab_id)
    (hinj : ∀ i j, i < rest.length → j < rest.length →
      idGen (ctr + i) = idGen (ctr + j) → i = j) :
    ∃ acts, applyRows false idGen now mapping db ctr [r] =
      .ok ({ teaching :=
               (update_canonical_ref db r.vocab_id s0.krdict_id now).teaching ++
               (rest.zip (idsFrom idGen ctr rest.length)).map
                 (fun p => extraRow r p.1 p.2 now),
             glosses :=
               (upsert_primary_en_gloss
                 (update_canonical_ref db r.vocab_id s0.krdict_id now)
                 r.vocab_id s0.gloss_en).glosses ++
               (rest.zip (idsFrom idGen ctr rest.length)).map
                 (fun p => ⟨p.2, "en", p.1.gloss_en, true⟩) },
           ctr + rest.length, acts) := by
  have hupt := upsert_teaching (update_canonical_ref db r.vocab_id s0.krdict_id now)
    r.vocab_id s0.gloss_en
  have hT1 : ∀ i, i < rest.length →
      ∀ t ∈ (upsert_primary_en_gloss
        (update_canonical_ref db r.vocab_id s0.krdict_id now)
        r.vocab_id s0.gloss_en).teaching, t.id ≠ idGen (ctr + i) := by
    intro i hi t ht
    rw [hupt] at ht
    obtain ⟨t', ht', hid⟩ := update_teaching_mem db r.vocab_id s0.krdict_id now t ht
    rw [hid]
    exact hT i hi t' ht'
  have hG1 : ∀ i, i < rest.length →
      ∀ g ∈ (upsert_primary_en_gloss
        (update_canonical_ref db r.vocab_id s0.krdict_id now)
        r.vocab_id s0.gloss_en).glosses, g.vocab_id ≠ idGen (ctr + i) := by
    intro i hi g hg
    rcases upsert_gloss_ids _ _ _ g hg with hveq | ⟨g', hg', hveq⟩
    · rw [hveq]
      exact fun hc => hGv i hi hc.symm
    · rw [hveq]
      have : g' ∈ db.glosses := by
        rw [update_glosses] at hg'
        exact hg'
      exact hG i hi g' this
  cases rest with
  | nil =>
    refine ⟨[Action.single r.vocab_id r.lemma_raw r.lemma_key s0.krdict_id
      s0.gloss_en], ?_⟩
    rw [applyRows, hmap]
    simp only []
    rw [if_neg (by simp)]
    rw [applyRows]
    have hz : (([] : List SenseOut).zip ([] : List String)) = [] := rfl
    simp only [List.length_nil, idsFrom_zero, hz, List.map_nil,
      List.append_nil, Nat.add_zero, ← hupt]
  | cons s1 srest =>
    refine ⟨[Action.split r.vocab_id r.lemma_raw r.lemma_key s0
      (((s1 :: srest).zip (idsFrom idGen ctr (s1 :: srest).length)).map
        (fun p => ⟨p.2, p.1.krdict_id, p.1.gloss_en, p.1.sense_label⟩))], ?_⟩
    rw [applyRows, hmap]
    simp only []
    rw [if_neg (by simp)]
    have hext := applyExtras_full idGen now r (s1 :: srest)
      (upsert_primary_en_gloss
        (update_canonical_ref db r.vocab_id s0.krdict_id now)
        r.vocab_id s0.gloss_en) ctr hT1 hG1 hinj
    rw [hext]
    simp only []
    rw [applyRows]
    simp only [hupt]

/-! ## Batch-level lemmas -/

lemma processBatch_ok {cfg : BatchCfg} {table : List KrdictRow}
    {idGen : Nat → String} {db : DB} {ctr now : Nat} {batch : List TeachingRow}
    {resp : Except String ModelOut} {evs : List Ev} {db' : DB} {ctr' : Nat}
    (h : processBatch cfg table idGen db ctr now batch resp = (evs, .ok (db', ctr'))) :
    ∃ out mapping dbA actions,
      resp = .ok out ∧
      applyRows cfg.dryRun idGen now mapping db ctr batch = .ok (dbA, ctr', actions) ∧
      evs = .oracleCall :: .logAppend (.batchRec cfg.dryRun cfg.model cfg.mode
        batch.length actions) :: (if cfg.dryRun then [] else [.commit]) ∧
      db' = (if cfg.dryRun then db else dbA) := by
  unfold processBatch at h
  cases hfetch : fetch_candidates_for_lemma_keys table (batchKeys batch) with
  | none => rw [hfetch] at h; simp at h
  | some cmap =>
    rw [hfetch] at h
    simp only [] at h
    by_cases hnc : noCandsOf cmap batch ≠ []
    · rw [if_pos hnc] at h
      simp at h
    · rw [if_neg hnc] at h
      cases resp with
      | error msg => simp at h
      | ok out =>
        simp only [] at h
        cases hval : validate_model_output out batch (cgetOf cmap) with
        | error e => rw [hval] at h; simp at h
        | ok mapping =>
          rw [hval] at h
          simp only [] at h
          cases happ : applyRows cfg.dryRun idGen now mapping db ctr batch with
          | error e => rw [happ] at h; simp at h
          | ok trip =>
            obtain ⟨dbA, ctrA, actions⟩ := trip
            rw [happ] at h
            simp only [] at h
            by_cases hdry : cfg.dryRun = true
            · rw [if_pos hdry] at h
              simp only [Prod.mk.injEq, Except.ok.injEq] at h
              obtain ⟨hevs, hdb, hctr⟩ := h
              refine ⟨out, mapping, dbA, actions, rfl, ?_, ?_, ?_⟩
              · rw [happ, hctr]
              · rw [← hevs, hdry, if_pos rfl]
              · rw [← hdb, hdry, if_pos rfl]
            · rw [if_neg hdry] at h
              simp only [Prod.mk.injEq, Except.ok.injEq] at h
              obtain ⟨hevs, hdb, hctr⟩ := h
              refine ⟨out, mapping, dbA, actions, rfl, ?_, ?_, ?_⟩
              · rw [happ, hctr]
              · rw [← hevs, if_neg hdry]
              · rw [← hdb, if_neg hdry]

lemma processBatch_noCands {cfg : BatchCfg} {table : List KrdictRow}
    {idGen : Nat → String} {db : DB} {ctr now : Nat} {batch : List TeachingRow}
    {resp : Except String ModelOut}
    {cmap : List (List Nat × List Candidate)}
    (hfetch : fetch_candidates_for_lemma_keys table (batchKeys batch) = some cmap)
    (hnc : noCandsOf cmap batch ≠ []) :
    processBatch cfg table idGen db ctr now batch resp =
      ([.logAppend (.noCandidates cfg.dryRun
          ((pySortedSet (noCandsOf cmap batch)).take 200))],
       .error (.noCandidates ((pySortedSet (noCandsOf cmap batch)).take 20))) := by
  unfold processBatch
  rw [hfetch]
  simp only []
  rw [if_pos hnc]

lemma runBatches_nil (cfg : BatchCfg) (table : List KrdictRow)
    (idGen : Nat → String) (db : DB) (ctr now : Nat) :
    runBatches cfg table idGen db ctr now [] = ⟨db, ctr, [], none⟩ := rfl

lemma runBatches_cons_err {cfg : BatchCfg} {table : List KrdictRow}
    {idGen : Nat → String} {db : DB} {ctr now : Nat}
    {batch : List TeachingRow} {resp : Except String ModelOut}
    {evs : List Ev} {e : RunErr}
    (rest : List (List TeachingRow × Except String ModelOut))
    (h : processBatch cfg table idGen db ctr now batch resp = (evs, .error e)) :
    runBatches cfg table idGen db ctr now ((batch, resp) :: rest) =
      ⟨db, ctr, evs, some e⟩ := by
  rw [runBatches, h]

lemma runBatches_cons_ok {cfg : BatchCfg} {table : List KrdictRow}
    {idGen : Nat → String} {db : DB} {ctr now : Nat}
    {batch : List TeachingRow} {resp : Except String ModelOut}
    {evs : List Ev} {db' : DB} {ctr' : Nat}
    (rest : List (List TeachingRow × Except String ModelOut))
    (h : processBatch cfg table idGen db ctr now batch resp = (evs, .ok (db', ctr'))) :
    runBatches cfg table idGen db ctr now ((batch, resp) :: rest) =
      ⟨(runBatches cfg table idGen db' ctr' (now + 1) rest).db,
       (runBatches cfg table idGen db' ctr' (now + 1) rest).ctr,
       evs ++ (runBatches cfg table idGen db' ctr' (now + 1) rest).evs,
       (runBatches cfg table idGen db' ctr' (now + 1) rest).err⟩ := by
  rw [runBatches, h]

/-- Transactional atomicity: if the batch after a clean prefix fails, the
committed database is exactly the prefix's, nothing of the failing batch. -/
lemma runBatches_err_after (cfg : BatchCfg) (table : List KrdictRow)
    (idGen : Nat → String) :
    ∀ (pre : List (List TeachingRow × Except String ModelOut))
      (b : List TeachingRow × Except String ModelOut)
      (suf : List (List TeachingRow × Except String ModelOut))
      (db : DB) (ctr now : Nat) (evs : List Ev) (e : RunErr),
      (runBatches cfg table idGen db ctr now pre).err = none →
      processBatch cfg table idGen (runBatches cfg table idGen db ctr now pre).db
        (runBatches cfg table idGen db ctr now pre).ctr (now + pre.length)
        b.1 b.2 = (evs, .error e) →
      runBatches cfg table idGen db ctr now (pre ++ b :: suf) =
        ⟨(runBatches cfg table idGen db ctr now pre).db,
         (runBatches cfg table idGen db ctr now pre).ctr,
         (runBatches cfg table idGen db ctr now pre).evs ++ evs, some e⟩
  | [], b, suf, db, ctr, now, evs, e => by
    intro _ hfail
    obtain ⟨batch, resp⟩ := b
    rw [runBatches_nil] at hfail ⊢
    simp only [List.length_nil, Nat.add_zero] at hfail
    rw [List.nil_append]
    have := runBatches_cons_err suf hfail
    rw [this]
    simp
  | p :: pre', b, suf, db, ctr, now, evs, e => by
    intro hok hfail
    obtain ⟨batch1, resp1⟩ := p
    cases hp : processBatch cfg table idGen db ctr now batch1 resp1 with
    | mk evs1 res1 =>
      cases res1 with
      | error e1 =>
        exfalso
        rw [runBatches_cons_err pre' hp] at hok
        simp at hok
      | ok pr =>
        obtain ⟨db1, ctr1⟩ := pr
        have hcons := runBatches_cons_ok pre' hp
        rw [hcons] at hok
        simp only [] at hok
        have hfail' : processBatch cfg table idGen
            (runBatches cfg table idGen db1 ctr1 (now + 1) pre').db
            (runBatches cfg table idGen db1 ctr1 (now + 1) pre').ctr
            ((now + 1) + pre'.length) b.1 b.2 = (evs, .error e) := by
          have hlen : (now + 1) + pre'.length = now + ((batch1, resp1) :: pre').length := by
            simp only [List.length_cons]
            omega
          rw [hlen]
          rw [hcons] at hfail
          exact hfail
        have hIH := runBatches_err_after cfg table idGen pre' b suf db1 ctr1
          (now + 1) evs e hok hfail'
        rw [List.cons_append, runBatches_cons_ok (pre' ++ b :: suf) hp, hIH,
          hcons]
        simp only [RunOut.mk.injEq, List.append_assoc]

/-! ## Sortedness of the candidate sort on homogeneous key lists -/

lemma lexLeCh_total : ∀ a b : List Char, lexLeCh a b = true ∨ lexLeCh b a = true
  | [], _ => Or.inl rfl
  | _ :: _, [] => Or.inr rfl
  | a :: as, b :: bs => by
    rw [lexLeCh, lexLeCh]
    by_cases h1 : a.toNat < b.toNat
    · left
      rw [if_pos h1]
    · by_cases h2 : b.toNat < a.toNat
      · right
        rw [if_pos h2]
      · rw [if_neg h1, if_neg h2, if_neg h2, if_neg h1]
        exact lexLeCh_total as bs

lemma lexLeCh_trans : ∀ a b c : List Char,
    lexLeCh a b = true → lexLeCh b c = true → lexLeCh a c = true
  | [], _, _, _, _ => rfl
  | _ :: _, [], _, h1, _ => by rw [lexLeCh] at h1; exact absurd h1 (by simp)
  | _ :: _, _ :: _, [], _, h2 => by rw [lexLeCh] at h2; exact absurd h2 (by simp)
  | a :: as, b :: bs, c :: cs, h1, h2 => by
    rw [lexLeCh] at h1 h2 ⊢
    by_cases hab : a.toNat < b.toNat
    · by_cases hbc : b.toNat < c.toNat
      · rw [if_pos (by omega)]
      · rw [if_pos hab] at h1
        by_cases hcb : c.toNat < b.toNat
        · rw [if_neg hbc, if_pos hcb] at h2
          exact absurd h2 (by simp)
        · rw [if_pos (by omega)]
    · by_cases hba : b.toNat < a.toNat
      · rw [if_neg hab, if_pos hba] at h1
        exact absurd h1 (by simp)
      · rw [if_neg hab, if_neg hba] at h1
        by_cases hbc : b.toNat < c.toNat
        · rw [if_pos (by omega)]
        · by_cases hcb : c.toNat < b.toNat
          · rw [if_neg hbc, if_pos hcb] at h2
            exact absurd h2 (by simp)
          · rw [if_neg hbc, if_neg hcb] at h2
            rw [if_neg (by omega), if_neg (by omega)]
            exact lexLeCh_trans as bs cs h1 h2

lemma pairwise_orderedInsert {α : Type} (r : α → α → Prop) [DecidableRel r]
    (a : α) : ∀ l : List α, List.Pairwise r l →
      (∀ x ∈ l, r a x ∨ r x a) →
      (∀ b x, b ∈ l → x ∈ l → r a b → r b x → r a x) →
      List.Pairwise r (List.orderedInsert r a l)
  | [], _, _, _ => by simp
  | b :: t, hp, htot, htrans => by
    rw [List.orderedInsert]
    split
    · rename_i hab
      constructor
      · intro x hx
        rcases List.mem_cons.mp hx with heq | hxt
        · exact heq ▸ hab
        · exact htrans b x (by simp) (by simp [hxt]) hab
            ((List.pairwise_cons.mp hp).1 x hxt)
      · exact hp
    · rename_i hab
      have hba : r b a := by
        rcases htot b (by simp) with h | h
        · exact absurd h hab
        · exact h
      constructor
      · intro x hx
        rcases (List.mem_orderedInsert r).mp hx with heq | hxt
        · exact heq ▸ hba
        · exact (List.pairwise_cons.mp hp).1 x hxt
      · exact pairwise_orderedInsert r a t (List.pairwise_cons.mp hp).2
          (fun x hx => htot x (by simp [hx]))
          (fun b' x hb hx hab' hbx =>
            htrans b' x (by simp [hb]) (by simp [hx]) hab' hbx)

lemma pairwise_insertionSort {α : Type} (r : α → α → Prop) [DecidableRel r] :
    ∀ l : List α, (∀ x ∈ l, ∀ y ∈ l, r x y ∨ r y x) →
      (∀ x y z, x ∈ l → y ∈ l → z ∈ l → r x y → r y z → r x z) →
      List.Pairwise r (List.insertionSort r l)
  | [], _, _ => by simp
  | a :: t, htot, htrans => by
    rw [List.insertionSort]
    apply pairwise_orderedInsert
    · exact pairwise_insertionSort r t
        (fun x hx y hy => htot x (by simp [hx]) y (by simp [hy]))
        (fun x y z hx hy hz => htrans x y z (by simp [hx]) (by simp [hy])
          (by simp [hz]))
    · intro x hx
      have hxt : x ∈ t := (List.mem_insertionSort r).mp hx
      exact htot a (by simp) x (by simp [hxt])
    · intro b x hb hx hab hbx
      exact htrans a b x (by simp)
        (by simp [(List.mem_insertionSort r).mp hb])
        (by simp [(List.mem_insertionSort r).mp hx]) hab hbx

lemma validateLoop_lemma_blind (batch : List TeachingRow)
    (cget : List Nat → List Candidate) :
    ∀ {rs1 rs2 : List ResultEntry},
      List.Forall₂ (fun e1 e2 =>
        e1.vocab_id = e2.vocab_id ∧ e1.senses = e2.senses) rs1 rs2 →
      ∀ m, validateLoop batch cget rs1 m = validateLoop batch cget rs2 m := by
  intro rs1 rs2 hf
  induction hf with
  | nil => intro m; rfl
  | @cons e1 e2 l1 l2 h12 hrest ih =>
    intro m
    obtain ⟨hvid, hsen⟩ := h12
    rw [validateLoop, validateLoop, hvid, hsen]
    split
    · rfl
    · split
      · rfl
      · split
        · rfl
        · split
          · rfl
          · exact ih _

/-! ## Claim theorems -/

/-- C3: the validator accepts a result only if, for each row, every sense's
chosen candidate id belongs to that row's own candidate set and no candidate
id repeats within the row's senses (an injective sense-to-candidate
assignment into the row's own candidates); and a failing batch applies no
mutation: the committed database after the failed batch is the input one. -/
theorem validator_senses_injective_into_own_candidates
    (out : ModelOut) (batch : List TeachingRow)
    (cget : List Nat → List Candidate)
    (mapping : List (String × List SenseOut))
    (hok : validate_model_output out batch cget = .ok mapping) :
    (∀ vid senses, alookup mapping vid = some senses →
      ∃ row, alookup (rowById batch) vid = some row ∧
        (senses.map (·.krdict_id)).Nodup ∧
        ∀ s ∈ senses, s.krdict_id ∈ (cget row.lemma_key).map (·.krdict_id)) ∧
    (∀ cfg table idGen db ctr now resp evs e,
      processBatch cfg table idGen db ctr now batch resp = (evs, .error e) →
      runBatches cfg table idGen db ctr now [(batch, resp)] =
        ⟨db, ctr, evs, some e⟩) := by
  constructor
  · exact validateLoop_good batch cget out.results [] mapping
      (validate_ok_loop hok) (by intro vid senses h; simp [alookup] at h)
  · intro cfg table idGen db ctr now resp evs e h
    exact runBatches_cons_err [] h

theorem validator_senses_injective_into_own_candidates_witness :
    (∀ vid senses,
      alookup [("a", [(⟨"l", "g", "1"⟩ : SenseOut)])] vid = some senses →
      ∃ row, alookup (rowById [rowA]) vid = some row ∧
        (senses.map (·.krdict_id)).Nodup ∧
        ∀ s ∈ senses, s.krdict_id ∈ (cgetAB row.lemma_key).map (·.krdict_id)) ∧
    (∀ cfg table idGen db ctr now resp evs e,
      processBatch cfg table idGen db ctr now [rowA] resp = (evs, .error e) →
      runBatches cfg table idGen db ctr now [([rowA], resp)] =
        ⟨db, ctr, evs, some e⟩) :=
  validator_senses_injective_into_own_candidates
    ⟨[⟨"a", "x", [⟨"l", "g", "1"⟩]⟩]⟩ [rowA] cgetAB
    [("a", [⟨"l", "g", "1"⟩])] (by decide)

/-- C4 counterexample: the claim demands that validation succeed only when
each batch row id appears exactly once in the oracle's results, but the code
accepts a response that reports row `"a"` twice (the later result silently
overwrites the earlier one). -/
theorem validator_accepts_duplicate_result_ids :
    validate_model_output outDup [rowA] cgetAB =
      .ok [("a", [⟨"l", "g", "1"⟩])] ∧
    outDup.results.map (·.vocab_id) = ["a", "a"] ∧
    [rowA].map (·.vocab_id) = ["a"] := by decide

/-- C4 as amended: validation succeeds only if every reported row id belongs
to the batch, every result carries at least one sense, and every batch row id
is covered by the results (duplicate results for one row id are accepted,
the last occurrence winning); a missing-id failure reports at most ten ids. -/
theorem validator_coverage_requirements
    (out : ModelOut) (batch : List TeachingRow)
    (cget : List Nat → List Candidate)
    (mapping : List (String × List SenseOut)) :
    (validate_model_output out batch cget = .ok mapping →
      (∀ e ∈ out.results, e.vocab_id ∈ batch.map (·.vocab_id) ∧ e.senses ≠ []) ∧
      ∀ r ∈ batch, (alookup mapping r.vocab_id).isSome = true) ∧
    (∀ ids tr, validate_model_output out batch cget = .error (.missingIds ids tr) →
      ids.length ≤ 10) := by
  constructor
  · intro hok
    exact ⟨validateLoop_entries batch cget out.results [] mapping
      (validate_ok_loop hok), validate_ok_covers hok⟩
  · intro ids tr h
    exact validate_missing_bounded h

theorem validator_coverage_requirements_witness :
    (∀ e ∈ outDup.results, e.vocab_id ∈ [rowA].map (·.vocab_id) ∧ e.senses ≠ []) ∧
    ∀ r ∈ [rowA],
      (alookup [("a", [(⟨"l", "g", "1"⟩ : SenseOut)])] r.vocab_id).isSome = true :=
  (validator_coverage_requirements outDup [rowA] cgetAB
    [("a", [⟨"l", "g", "1"⟩])]).1 (by decide)

/-- C10: the validator never inspects the `lemma` field the oracle returns:
two responses that differ only in their `lemma` strings validate to exactly
the same outcome. -/
theorem validator_independent_of_returned_lemma
    (o1 o2 : ModelOut) (batch : List TeachingRow)
    (cget : List Nat → List Candidate)
    (h : List.Forall₂ (fun e1 e2 =>
      e1.vocab_id = e2.vocab_id ∧ e1.senses = e2.senses) o1.results o2.results) :
    validate_model_output o1 batch cget = validate_model_output o2 batch cget := by
  unfold validate_model_output
  rw [validateLoop_lemma_blind batch cget h []]

theorem validator_independent_of_returned_lemma_witness :
    validate_model_output ⟨[⟨"a", "totally", [⟨"l", "g", "1"⟩]⟩]⟩ [rowA] cgetAB =
    validate_model_output ⟨[⟨"a", "different", [⟨"l", "g", "1"⟩]⟩]⟩ [rowA] cgetAB :=
  validator_independent_of_returned_lemma _ _ [rowA] cgetAB
    (List.Forall₂.cons ⟨rfl, rfl⟩ List.Forall₂.nil)

/-- C7 counterexample: the claim asserts the candidate sort succeeds on every
list, including one mixing an all-digit id with a non-digit id; on such a
list the Python sort key mixes `int` and `str` and the sort raises
`TypeError` (modelled by `none`). -/
theorem mixed_id_sort_raises_type_error :
    pySortCandidates [⟨"2", none, none⟩, ⟨"a", none, none⟩] = none := by decide

/-- C7 as amended: the candidate sort succeeds and yields the deterministic
stable ascending order when the ids are homogeneous — all purely numeric
(ordered by numeric value) or all non-numeric (ordered lexicographically);
a list mixing the two kinds raises `TypeError` and aborts the run. -/
theorem homogeneous_id_sort_total_and_ordered (l : List Candidate) :
    ((∀ c ∈ l, isDigits c.krdict_id = true) →
      pySortCandidates l = some (List.insertionSort candLe l) ∧
      (List.insertionSort candLe l).Perm l ∧
      List.Pairwise (fun a b => digitsToNat a.krdict_id ≤ digitsToNat b.krdict_id)
        (List.insertionSort candLe l)) ∧
    ((∀ c ∈ l, isDigits c.krdict_id = false) →
      pySortCandidates l = some (List.insertionSort candLe l) ∧
      (List.insertionSort candLe l).Perm l ∧
      List.Pairwise (fun a b => strLeB a.krdict_id b.krdict_id = true)
        (List.insertionSort candLe l)) := by
  constructor
  · intro hall
    have hnone : (l.any fun c => !isDigits c.krdict_id) = false := by
      rw [List.any_eq_false]
      intro c hc
      rw [hall c hc]
      simp
    refine ⟨?_, List.perm_insertionSort candLe l, ?_⟩
    · unfold pySortCandidates
      rw [hnone, Bool.and_false, if_neg (by simp)]
    · have hpw := pairwise_insertionSort candLe l
        (by
          intro x hx y hy
          unfold candLe
          rw [hall x hx, hall y hy]
          simp only [Bool.and_self, if_pos rfl]
          exact Nat.le_total _ _)
        (by
          intro x y z hx hy hz
          unfold candLe
          rw [hall x hx, hall y hy, hall z hz]
          simp only [Bool.and_self, if_pos rfl]
          exact Nat.le_trans)
      refine hpw.imp_of_mem ?_
      intro a b ha hb hab
      have ha' := hall a ((List.mem_insertionSort candLe).mp ha)
      have hb' := hall b ((List.mem_insertionSort candLe).mp hb)
      unfold candLe at hab
      rw [ha', hb'] at hab
      simpa using hab
  · intro hall
    have hnone : (l.any fun c => isDigits c.krdict_id) = false := by
      rw [List.any_eq_false]
      intro c hc
      rw [hall c hc]
      simp
    refine ⟨?_, List.perm_insertionSort candLe l, ?_⟩
    · unfold pySortCandidates
      rw [hnone, Bool.false_and, if_neg (by simp)]
    · have hpw := pairwise_insertionSort candLe l
        (by
          intro x hx y hy
          unfold candLe
          rw [hall x hx, hall y hy]
          simp only [Bool.false_and, Bool.and_false, Bool.false_eq_true, if_false]
          exact lexLeCh_total _ _)
        (by
          intro x y z hx hy hz
          unfold candLe
          rw [hall x hx, hall y hy, hall z hz]
          simp only [Bool.false_and, Bool.and_false, Bool.false_eq_true, if_false]
          exact lexLeCh_trans _ _ _)
      refine hpw.imp_of_mem ?_
      intro a b ha hb hab
      have ha' := hall a ((List.mem_insertionSort candLe).mp ha)
      unfold candLe at hab
      rw [ha'] at hab
      simpa using hab

lemma flatMap_nil_of_forall {α β : Type} (f : α → List β) :
    ∀ l : List α, (∀ a ∈ l, f a = []) → l.flatMap f = []
  | [], _ => rfl
  | a :: t, h => by
    rw [List.flatMap_cons, h a (by simp), List.nil_append]
    exact flatMap_nil_of_forall f t (fun x hx => h x (by simp [hx]))

/-- C5: a batch containing a lemma with zero dictionary candidates appends an
audit record holding the offending lemma list and aborts with an error before
the oracle is called and before any mutation is committed. -/
theorem zero_candidate_lemma_aborts_before_oracle
    (cfg : BatchCfg) (table : List KrdictRow) (idGen : Nat → String)
    (db : DB) (ctr now : Nat) (batch : List TeachingRow)
    (resp : Except String ModelOut) (cmap : List (List Nat × List Candidate))
    (suf : List (List TeachingRow × Except String ModelOut))
    (r : TeachingRow) (hr : r ∈ batch)
    (hfetch : fetch_candidates_for_lemma_keys table (batchKeys batch) = some cmap)
    (hzero : cgetOf cmap r.lemma_key = []) :
    processBatch cfg table idGen db ctr now batch resp =
      ([.logAppend (.noCandidates cfg.dryRun
          ((pySortedSet (noCandsOf cmap batch)).take 200))],
       .error (.noCandidates ((pySortedSet (noCandsOf cmap batch)).take 20))) ∧
    r.lemma_key ∈ noCandsOf cmap batch ∧
    Ev.oracleCall ∉ (processBatch cfg table idGen db ctr now batch resp).1 ∧
    Ev.commit ∉ (processBatch cfg table idGen db ctr now batch resp).1 ∧
    runBatches cfg table idGen db ctr now ((batch, resp) :: suf) =
      ⟨db, ctr,
       [.logAppend (.noCandidates cfg.dryRun
          ((pySortedSet (noCandsOf cmap batch)).take 200))],
       some (.noCandidates ((pySortedSet (noCandsOf cmap batch)).take 20))⟩ := by
  have hmemnc : r.lemma_key ∈ noCandsOf cmap batch := by
    unfold noCandsOf
    apply List.mem_map_of_mem
    apply List.mem_filter.mpr
    refine ⟨hr, ?_⟩
    rw [hzero]
    rfl
  have hnc : noCandsOf cmap batch ≠ [] := List.ne_nil_of_mem hmemnc
  have h1 := @processBatch_noCands cfg table idGen db ctr now batch resp
    cmap hfetch hnc
  refine ⟨h1, hmemnc, ?_, ?_, ?_⟩
  · rw [h1]; simp
  · rw [h1]; simp
  · exact runBatches_cons_err suf h1

theorem zero_candidate_lemma_aborts_before_oracle_witness :
    processBatch cfgLive [] idGenZ dbAB 0 0 [rowA] (.ok respRev) =
      ([.logAppend (.noCandidates cfgLive.dryRun
          ((pySortedSet (noCandsOf [] [rowA])).take 200))],
       .error (.noCandidates ((pySortedSet (noCandsOf [] [rowA])).take 20))) ∧
    rowA.lemma_key ∈ noCandsOf [] [rowA] ∧
    Ev.oracleCall ∉ (processBatch cfgLive [] idGenZ dbAB 0 0 [rowA] (.ok respRev)).1 ∧
    Ev.commit ∉ (processBatch cfgLive [] idGenZ dbAB 0 0 [rowA] (.ok respRev)).1 ∧
    runBatches cfgLive [] idGenZ dbAB 0 0 [([rowA], .ok respRev)] =
      ⟨dbAB, 0,
       [.logAppend (.noCandidates cfgLive.dryRun
          ((pySortedSet (noCandsOf [] [rowA])).take 200))],
       some (.noCandidates ((pySortedSet (noCandsOf [] [rowA])).take 20))⟩ :=
  zero_candidate_lemma_aborts_before_oracle cfgLive [] idGenZ dbAB 0 0 [rowA]
    (.ok respRev) [] [] rowA (by decide) (by decide) (by decide)

/-- C2: all of a batch's mutations live in one transaction — if the batch
after an error-free prefix fails anywhere (oracle transport, validation,
storage), the committed database and uuid counter are exactly the prefix's:
nothing of the failing batch persists, even partially, and the previously
committed batches are intact. -/
theorem batch_atomicity_rollback
    (cfg : BatchCfg) (table : List KrdictRow) (idGen : Nat → String)
    (pre : List (List TeachingRow × Except String ModelOut))
    (b : List TeachingRow × Except String ModelOut)
    (suf : List (List TeachingRow × Except String ModelOut))
    (db : DB) (ctr now : Nat) (evs : List Ev) (e : RunErr)
    (hok : (runBatches cfg table idGen db ctr now pre).err = none)
    (hfail : processBatch cfg table idGen
      (runBatches cfg table idGen db ctr now pre).db
      (runBatches cfg table idGen db ctr now pre).ctr
      (now + pre.length) b.1 b.2 = (evs, .error e)) :
    runBatches cfg table idGen db ctr now (pre ++ b :: suf) =
      ⟨(runBatches cfg table idGen db ctr now pre).db,
       (runBatches cfg table idGen db ctr now pre).ctr,
       (runBatches cfg table idGen db ctr now pre).evs ++ evs, some e⟩ :=
  runBatches_err_after cfg table idGen pre b suf db ctr now evs e hok hfail

theorem batch_atomicity_rollback_witness :
    runBatches cfgLive tableAB idGenZ dbAB 0 0 [(batchAB, respBad)] =
      ⟨dbAB, 0, [.oracleCall],
       some (.validationErr (.notInCandidates "b" "9"))⟩ :=
  batch_atomicity_rollback cfgLive tableAB idGenZ [] (batchAB, respBad) []
    dbAB 0 0 [.oracleCall] (.validationErr (.notInCandidates "b" "9"))
    rfl (by decide)

/-- C8: a successful batch appends exactly one audit record, before the
commit, holding one action per row (in row order); the ids of all rows the
batch created are exactly the ids recorded in the actions' `inserts`; in
dry-run mode no database write happens (the committed state is unchanged, no
commit event is emitted) while the record is still appended with the dry-run
flag set. -/
theorem audit_record_logged_before_commit
    (cfg : BatchCfg) (table : List KrdictRow) (idGen : Nat → String)
    (db : DB) (ctr now : Nat) (batch : List TeachingRow)
    (resp : Except String ModelOut) (evs : List Ev) (db' : DB) (ctr' : Nat)
    (h : processBatch cfg table idGen db ctr now batch resp = (evs, .ok (db', ctr'))) :
    ∃ actions,
      evs = .oracleCall :: .logAppend (.batchRec cfg.dryRun cfg.model cfg.mode
        batch.length actions) :: (if cfg.dryRun then [] else [.commit]) ∧
      actions.length = batch.length ∧
      actions.map Action.vid = batch.map (·.vocab_id) ∧
      db'.teaching.map (·.id) =
        db.teaching.map (·.id) ++ actions.flatMap Action.insertIds ∧
      (cfg.dryRun = true →
        db' = db ∧ actions.flatMap Action.insertIds = []) := by
  obtain ⟨out, mapping, dbA, actions, hresp, happ, hevs, hdb'⟩ := processBatch_ok h
  obtain ⟨hids, hvids⟩ :=
    applyRows_ok_ids cfg.dryRun idGen now mapping batch db ctr dbA ctr' actions happ
  have hlen : actions.length = batch.length := by
    have := congrArg List.length hvids
    simpa using this
  by_cases hdry : cfg.dryRun = true
  · rw [hdry] at happ
    obtain ⟨hdbA, _, hacts⟩ :=
      applyRows_dry idGen now mapping batch db ctr dbA ctr' actions happ
    have hnilins : actions.flatMap Action.insertIds = [] :=
      flatMap_nil_of_forall _ actions hacts
    refine ⟨actions, hevs, hlen, hvids, ?_, fun _ => ⟨?_, hnilins⟩⟩
    · rw [hdb', hdry, if_pos rfl, hnilins, List.append_nil]
    · rw [hdb', hdry, if_pos rfl]
  · refine ⟨actions, hevs, hlen, hvids, ?_, fun hc => absurd hc hdry⟩
    rw [hdb', if_neg hdry]
    exact hids

theorem audit_record_logged_before_commit_witness :
    ∃ actions,
      ([.oracleCall,
        .logAppend (.batchRec false "m" "needs_work" 2
          [Action.single "a" [97] [97] "1" "ga",
           Action.single "b" [98] [98] "2" "gb"]),
        .commit] : List Ev) =
        .oracleCall :: .logAppend (.batchRec cfgLive.dryRun cfgLive.model
          cfgLive.mode batchAB.length actions) ::
          (if cfgLive.dryRun then [] else [.commit]) ∧
      actions.length = batchAB.length ∧
      actions.map Action.vid = batchAB.map (·.vocab_id) ∧
      dbABAfter.teaching.map (·.id) =
        dbAB.teaching.map (·.id) ++ actions.flatMap Action.insertIds ∧
      (cfgLive.dryRun = true →
        dbABAfter = dbAB ∧ actions.flatMap Action.insertIds = []) :=
  audit_record_logged_before_commit cfgLive tableAB idGenZ dbAB 0 0 batchAB
    (.ok respRev)
    [.oracleCall,
     .logAppend (.batchRec false "m" "needs_work" 2
       [Action.single "a" [97] [97] "1" "ga",
        Action.single "b" [98] [98] "2" "gb"]),
     .commit]
    dbABAfter 0 (by decide)

/-- C9 as amended: batches are processed sequentially in the controller's
selection order (each batch's events precede the next batch's and its
committed state feeds the next), but within a batch the rows are applied in
the batch's own row order — the order of the controller's selection — not in
the order the oracle returned the results. -/
theorem rows_applied_in_batch_order
    (cfg : BatchCfg) (table : List KrdictRow) (idGen : Nat → String)
    (db : DB) (ctr now : Nat) (batch : List TeachingRow)
    (resp : Except String ModelOut) (evs : List Ev) (db' : DB) (ctr' : Nat)
    (h : processBatch cfg table idGen db ctr now batch resp = (evs, .ok (db', ctr'))) :
    (∃ actions,
      Ev.logAppend (.batchRec cfg.dryRun cfg.model cfg.mode batch.length actions)
        ∈ evs ∧
      actions.map Action.vid = batch.map (·.vocab_id)) ∧
    ∀ rest, runBatches cfg table idGen db ctr now ((batch, resp) :: rest) =
      ⟨(runBatches cfg table idGen db' ctr' (now + 1) rest).db,
       (runBatches cfg table idGen db' ctr' (now + 1) rest).ctr,
       evs ++ (runBatches cfg table idGen db' ctr' (now + 1) rest).evs,
       (runBatches cfg table idGen db' ctr' (now + 1) rest).err⟩ := by
  obtain ⟨out, mapping, dbA, actions, hresp, happ, hevs, hdb'⟩ := processBatch_ok h
  obtain ⟨_, hvids⟩ :=
    applyRows_ok_ids cfg.dryRun idGen now mapping batch db ctr dbA ctr' actions happ
  constructor
  · refine ⟨actions, ?_, hvids⟩
    rw [hevs]
    simp
  · intro rest
    exact runBatches_cons_ok rest h

theorem rows_applied_in_batch_order_witness :
    runBatches cfgLive tableAB idGenZ dbAB 0 0 [(batchAB, .ok respRev)] =
      ⟨dbABAfter, 0,
       [.oracleCall,
        .logAppend (.batchRec false "m" "needs_work" 2
          [Action.single "a" [97] [97] "1" "ga",
           Action.single "b" [98] [98] "2" "gb"]),
        .commit], none⟩ :=
  (rows_applied_in_batch_order cfgLive tableAB idGenZ dbAB 0 0 batchAB
    (.ok respRev)
    [.oracleCall,
     .logAppend (.batchRec false "m" "needs_work" 2
       [Action.single "a" [97] [97] "1" "ga",
        Action.single "b" [98] [98] "2" "gb"]),
     .commit]
    dbABAfter 0 (by decide)).2 []

/-- C9 counterexample: the claim says rows are applied in the order the
oracle returned the results; in this run the oracle returns row `"b"` before
row `"a"`, yet the audit actions — appended as each row is applied — list
`"a"` then `"b"`, the batch's selection order. -/
theorem rows_applied_in_batch_order_counterexample :
    (processBatch cfgLive tableAB idGenZ dbAB 0 0 batchAB (.ok respRev)).1 =
      [.oracleCall,
       .logAppend (.batchRec false "m" "needs_work" 2
         [Action.single "a" [97] [97] "1" "ga",
          Action.single "b" [98] [98] "2" "gb"]),
       .commit] ∧
    ([Action.single "a" [97] [97] "1" "ga",
      Action.single "b" [98] [98] "2" "gb"].map Action.vid = ["a", "b"]) ∧
    batchAB.map (·.vocab_id) = ["a", "b"] ∧
    respRev.results.map (·.vocab_id) = ["b", "a"] ∧
    (["a", "b"] : List String) ≠ ["b", "a"] := by decide

theorem homogeneous_id_sort_total_and_ordered_witness :
    pySortCandidates [(⟨"10", none, none⟩ : Candidate), ⟨"2", none, none⟩] =
      some (List.insertionSort candLe [⟨"10", none, none⟩, ⟨"2", none, none⟩]) ∧
    (List.insertionSort candLe
      [(⟨"10", none, none⟩ : Candidate), ⟨"2", none, none⟩]).Perm
      [⟨"10", none, none⟩, ⟨"2", none, none⟩] ∧
    List.Pairwise (fun a b => digitsToNat a.krdict_id ≤ digitsToNat b.krdict_id)
      (List.insertionSort candLe [(⟨"10", none, none⟩ : Candidate), ⟨"2", none, none⟩]) :=
  (homogeneous_id_sort_total_and_ordered
    [⟨"10", none, none⟩, ⟨"2", none, none⟩]).1 (by decide)

lemma filter_key_map (vid : String) (bad : List String) (f : TVRow → TVRow)
    (hid : ∀ t, (f t).id = t.id) :
    ∀ l : List TVRow, (∀ t ∈ l, t.id ∉ bad) →
      (l.map f).filter (fun t => decide (t.id = vid) || decide (t.id ∈ bad)) =
        (l.filter (fun t => decide (t.id = vid))).map f
  | [], _ => rfl
  | a :: l, h => by
    rw [List.map_cons, List.filter_cons, List.filter_cons]
    have hrest := filter_key_map vid bad f hid l (fun t ht => h t (by simp [ht]))
    by_cases hv : a.id = vid
    · have hcond : (decide ((f a).id = vid) || decide ((f a).id ∈ bad)) = true := by
        rw [hid a, hv]; simp
      have hcond2 : decide (a.id = vid) = true := decide_eq_true hv
      rw [hcond, hcond2, if_pos rfl, if_pos rfl, List.map_cons, hrest]
    · have hbad : a.id ∉ bad := h a (by simp)
      have hcond : (decide ((f a).id = vid) || decide ((f a).id ∈ bad)) = false := by
        rw [hid a]; simp [hv, hbad]
      have hcond2 : decide (a.id = vid) = false := decide_eq_false hv
      rw [hcond, hcond2, if_neg (by simp), if_neg (by simp), hrest]

/-- C1: applying a validated result with senses `s0 :: rest` to an existing
row (not in dry-run): the row keeps its identity with `canonical_ref` set to
the first sense's candidate id, its primary English gloss is upserted to the
first sense's gloss text, each remaining sense yields one clone row (with the
source row's descriptive attributes, a fresh id and the sense's candidate id
as `canonical_ref`) plus its own primary gloss; no clones when there is one
sense, the table grows by exactly `rest.length` rows, and the rows for the

lemma carry the chosen candidate ids in order — pairwise distinct when the
chosen ids are. -/

theorem split_apply_rewrites_vocabulary
    (idGen : Nat → String) (now : Nat)
    (mapping : List (String × List SenseOut)) (db : DB) (ctr : Nat)
    (r : TeachingRow) (s0 : SenseOut) (rest : List SenseOut) (t0 : TVRow)
    (db' : DB) (ctrf : Nat) (acts : List Action)
    (hmap : alookup mapping r.vocab_id = some (s0 :: rest))
    (hfilter : db.teaching.filter (fun t => decide (t.id = r.vocab_id)) = [t0])
    (hT : ∀ i, i < rest.length → ∀ t ∈ db.teaching, t.id ≠ idGen (ctr + i))
    (hG : ∀ i, i < rest.length → ∀ g ∈ db.glosses, g.vocab_id ≠ idGen (ctr + i))
    (hGv : ∀ i, i < rest.length → idGen (ctr + i) ≠ r.vocab_id)
    (hinj : ∀ i j, i < rest.length → j < rest.length →
      idGen (ctr + i) = idGen (ctr + j) → i = j)
    (happ : applyRows false idGen now mapping db ctr [r] = .ok (db', ctrf, acts)) :
    ctrf = ctr + rest.length ∧
    { t0 with canonical_ref := some s0.krdict_id, updated_at := now } ∈
      db'.teaching ∧
    (∀ g ∈ db'.glosses, isPrimaryEn r.vocab_id g = true → g.text = s0.gloss_en) ∧
    (∃ g ∈ db'.glosses, isPrimaryEn r.vocab_id g = true ∧ g.text = s0.gloss_en) ∧
    (∀ p ∈ rest.zip (idsFrom idGen ctr rest.length),
      extraRow r p.1 p.2 now ∈ db'.teaching ∧
      (⟨p.2, "en", p.1.gloss_en, true⟩ : GlossRow) ∈ db'.glosses) ∧
    db'.teaching.length = db.teaching.length + rest.length ∧
    (db'.teaching.filter (fun t => decide (t.id = r.vocab_id) ||
        decide (t.id ∈ idsFrom idGen ctr rest.length))).map
      (fun t => t.canonical_ref) =
      (s0 :: rest).map (fun s => some s.krdict_id) ∧
    (((s0 :: rest).map (fun s => s.krdict_id)).Nodup →
      (((db'.teaching.filter (fun t => decide (t.id = r.vocab_id) ||
          decide (t.id ∈ idsFrom idGen ctr rest.length))).map
        (fun t => t.canonical_ref))).Nodup) := by
  obtain ⟨acts0, heq⟩ := applyRows_one idGen now mapping db ctr r s0 rest
    hmap hT hG hGv hinj
  rw [heq] at happ
  simp only [Except.ok.injEq, Prod.mk.injEq] at happ
  obtain ⟨hdb', hctr, hacts⟩ := happ
  subst hdb'
  subst hctr
  have ht0f : t0 ∈ db.teaching.filter (fun t => decide (t.id = r.vocab_id)) := by
    rw [hfilter]; exact List.mem_singleton_self _
  have ht0mem : t0 ∈ db.teaching := List.mem_of_mem_filter ht0f
  have ht0id : t0.id = r.vocab_id :=
    of_decide_eq_true (List.mem_filter.mp ht0f).2
  have hfreshAll : ∀ t ∈ db.teaching, t.id ∉ idsFrom idGen ctr rest.length := by
    intro t ht hmemi
    obtain ⟨i, hi, hgen⟩ := List.mem_map.mp hmemi
    exact hT i (List.mem_range.mp hi) t ht hgen.symm
  have hspec := upsert_gloss_spec (update_canonical_ref db r.vocab_id
    s0.krdict_id now) r.vocab_id s0.gloss_en
  have hfm : (((update_canonical_ref db r.vocab_id s0.krdict_id now).teaching ++
        (rest.zip (idsFrom idGen ctr rest.length)).map
          (fun p => extraRow r p.1 p.2 now)).filter
        (fun t => decide (t.id = r.vocab_id) ||
          decide (t.id ∈ idsFrom idGen ctr rest.length))).map
      (fun t => t.canonical_ref) =
      (s0 :: rest).map (fun s => some s.krdict_id) := by
    rw [List.filter_append]
    have h1 : ((update_canonical_ref db r.vocab_id s0.krdict_id now).teaching).filter
        (fun t => decide (t.id = r.vocab_id) ||
          decide (t.id ∈ idsFrom idGen ctr rest.length)) =
        (db.teaching.filter (fun t => decide (t.id = r.vocab_id))).map
          (fun t => if t.id = r.vocab_id then
            { t with canonical_ref := some s0.krdict_id, updated_at := now }
            else t) := by
      exact filter_key_map r.vocab_id (idsFrom idGen ctr rest.length)
        (fun t => if t.id = r.vocab_id then
          { t with canonical_ref := some s0.krdict_id, updated_at := now }
          else t)
        (fun t => by simp only []; split <;> rfl) db.teaching hfreshAll
    have h2 : (((rest.zip (idsFrom idGen ctr rest.length)).map
        (fun p => extraRow r p.1 p.2 now)).filter
        (fun t => decide (t.id = r.vocab_id) ||
          decide (t.id ∈ idsFrom idGen ctr rest.length))) =
        (rest.zip (idsFrom idGen ctr rest.length)).map
          (fun p => extraRow r p.1 p.2 now) := by
      apply List.filter_eq_self.mpr
      intro x hx
      obtain ⟨p, hp, hxp⟩ := List.mem_map.mp hx
      have hp2 : p.2 ∈ idsFrom idGen ctr rest.length := (List.of_mem_zip hp).2
      rw [← hxp]
      simp only [Bool.or_eq_true, decide_eq_true_eq]
      right
      exact hp2
    rw [h1, h2, hfilter, List.map_cons, List.map_nil, List.cons_append,
      List.nil_append, List.map_cons, if_pos ht0id, List.map_cons]
    have h3 : ((rest.zip (idsFrom idGen ctr rest.length)).map
        (fun p => extraRow r p.1 p.2 now)).map (fun t => t.canonical_ref) =
        rest.map (fun s => some s.krdict_id) := by
      rw [List.map_map]
      have h4 : (rest.zip (idsFrom idGen ctr rest.length)).map
          ((fun t => t.canonical_ref) ∘ (fun p => extraRow r p.1 p.2 now)) =
          ((rest.zip (idsFrom idGen ctr rest.length)).map Prod.fst).map
            (fun s => some s.krdict_id) := by
        rw [List.map_map]
        apply List.map_congr_left
        intro p _
        rfl
      rw [h4, List.map_fst_zip rest (idsFrom idGen ctr rest.length)
        (by simp [idsFrom_length])]
    rw [h3]
  refine ⟨rfl, ?_, ?_, ?_, ?_, ?_, hfm, ?_⟩
  · apply List.mem_append_left
    show _ ∈ db.teaching.map (fun t => if t.id = r.vocab_id then
      { t with canonical_ref := some s0.krdict_id, updated_at := now } else t)
    refine List.mem_map.mpr ⟨t0, ht0mem, ?_⟩
    rw [if_pos ht0id]
  · intro g hg hpg
    rcases List.mem_append.mp hg with h1 | h2
    · exact hspec.1 g h1 hpg
    · exfalso
      obtain ⟨p, hp, hgp⟩ := List.mem_map.mp h2
      have hv : g.vocab_id = r.vocab_id := by
        simp only [isPrimaryEn, Bool.and_eq_true, decide_eq_true_eq] at hpg
        exact hpg.1.1
      rw [← hgp] at hv
      have hp2 : p.2 ∈ idsFrom idGen ctr rest.length := (List.of_mem_zip hp).2
      obtain ⟨i, hi, hgen⟩ := List.mem_map.mp hp2
      apply hGv i (List.mem_range.mp hi)
      rw [hgen]
      exact hv
  · obtain ⟨g, hg, hpg, htxt⟩ := hspec.2
    exact ⟨g, List.mem_append_left _ hg, hpg, htxt⟩
  · intro p hp
    constructor
    · exact List.mem_append_right _ (List.mem_map_of_mem _ hp)
    · exact List.mem_append_right _ (List.mem_map_of_mem _ hp)
  · show ((update_canonical_ref db r.vocab_id s0.krdict_id now).teaching ++
      (rest.zip (idsFrom idGen ctr rest.length)).map
        (fun p => extraRow r p.1 p.2 now)).length = _
    rw [List.length_append]
    have hu : (update_canonical_ref db r.vocab_id s0.krdict_id now).teaching.length =
        db.teaching.length := by
      show (db.teaching.map _).length = _
      rw [List.length_map]
    rw [hu, List.length_map, List.length_zip, idsFrom_length, Nat.min_self]
  · intro hnd
    rw [hfm]
    have h5 : (s0 :: rest).map (fun s => some s.krdict_id) =
        ((s0 :: rest).map (fun s => s.krdict_id)).map some := by
      rw [List.map_map]
      apply List.map_congr_left
      intro s _
      rfl
    rw [h5]
    exact List.Nodup.map (fun a b h => Option.some.inj h) hnd

theorem split_apply_rewrites_vocabulary_witness :
    (1 : Nat) = 0 + [sB].length ∧
    { tvA with canonical_ref := some sA.krdict_id, updated_at := 5 } ∈
      dbSplit.teaching ∧
    (∀ g ∈ dbSplit.glosses, isPrimaryEn rowA.vocab_id g = true →
      g.text = sA.gloss_en) ∧
    (∃ g ∈ dbSplit.glosses, isPrimaryEn rowA.vocab_id g = true ∧
      g.text = sA.gloss_en) ∧
    (∀ p ∈ [sB].zip (idsFrom idGenZ 0 [sB].length),
      extraRow rowA p.1 p.2 5 ∈ dbSplit.teaching ∧
      (⟨p.2, "en", p.1.gloss_en, true⟩ : GlossRow) ∈ dbSplit.glosses) ∧
    dbSplit.teaching.length = dbAB.teaching.length + [sB].length ∧
    (dbSplit.teaching.filter (fun t => decide (t.id = rowA.vocab_id) ||
        decide (t.id ∈ idsFrom idGenZ 0 [sB].length))).map
      (fun t => t.canonical_ref) =
      (sA :: [sB]).map (fun s => some s.krdict_id) ∧
    (((sA :: [sB]).map (fun s => s.krdict_id)).Nodup →
      (((dbSplit.teaching.filter (fun t => decide (t.id = rowA.vocab_id) ||
          decide (t.id ∈ idsFrom idGenZ 0 [sB].length))).map
        (fun t => t.canonical_ref))).Nodup) :=
  split_apply_rewrites_vocabulary idGenZ 5 mapSplit dbAB 0 rowA sA [sB] tvA
    dbSplit 1 actSplit (by decide) (by decide)
    (by intro i hi; simp only [List.length_singleton] at hi; interval_cases i; decide)
    (by intro i hi; simp only [List.length_singleton] at hi; interval_cases i; decide)
    (by intro i hi; simp only [List.length_singleton] at hi; interval_cases i; decide)
    (by intro i j hi hj _; simp only [List.length_singleton] at hi hj; omega)
    (by decide)

/-- C6: for a lemma key `k`, the variant list contains `k`, its NFC form and
its NFD form, with no duplicates and no empty variants; NFC is idempotent;
and retrieval is normalization-order-independent: a table row whose trimmed
headword is the decomposed (or the composed) form of `k` passes the SQL
variant match and its candidate is attributed to the composed key `k`, both
in the grouping map and in the sorted map `fetch_candidates_for_lemma_keys`
returns, because the fetched headword is re-keyed with the same trim+NFC
function. -/
theorem variant_retrieval_normalization_independent
    (keys : List (List Nat)) (k : List Nat) (table : List KrdictRow)
    (q : KrdictRow)
    (hmem : k ∈ keys) (hk : lemma_key k = k) (hne : k ≠ [])
    (hq : q ∈ table)
    (hhw : btrim q.headword = nfd k ∨ btrim q.headword = k) :
    (k ∈ build_variant_list keys ∧ nfd k ∈ build_variant_list keys ∧
      nfc k ∈ build_variant_list keys) ∧
    (build_variant_list keys).Nodup ∧
    [] ∉ build_variant_list keys ∧
    (∀ s : List Nat, nfc (nfc s) = nfc s) ∧
    sqlMatches (build_variant_list keys) q = true ∧
    rowKey q = k ∧
    rowCandidate q ∈
      (alookup (collectCandidates table (build_variant_list keys)) k).getD [] ∧
    (∀ cmap, fetch_candidates_for_lemma_keys table keys = some cmap →
      ∃ bucket, alookup cmap k = some bucket ∧ rowCandidate q ∈ bucket) := by
  obtain ⟨h1, h2, h3⟩ := variants_complete hmem hk hne
  obtain ⟨hnd, hnil⟩ := variants_nodup_ne_nil keys
  have hmatch : sqlMatches (build_variant_list keys) q = true := by
    unfold sqlMatches
    rcases hhw with h | h
    · rw [h]; exact decide_eq_true h2
    · rw [h]; exact decide_eq_true h1
  have hkey : rowKey q = k := by
    show lemma_key (pyStrip q.headword) = k
    have hps : pyStrip q.headword = pyStrip (btrim q.headword) :=
      (pyStrip_btrim _).symm
    rcases hhw with h | h
    · rw [hps, h]
      show nfc (pyStrip (pyStrip (nfd k))) = k
      rw [pyStrip_pyStrip]
      exact lemma_key_nfd_of_key hk
    · rw [hps, h]
      show nfc (pyStrip (pyStrip k)) = k
      rw [pyStrip_pyStrip]
      exact hk
  have hcol : rowCandidate q ∈
      (alookup (collectCandidates table (build_variant_list keys)) k).getD [] := by
    have := collect_complete hq hmatch
    rwa [hkey] at this
  refine ⟨⟨h1, h2, h3⟩, hnd, hnil, nfc_idem, hmatch, hkey, hcol, ?_⟩
  intro cmap hc
  unfold fetch_candidates_for_lemma_keys at hc
  cases hl : alookup (collectCandidates table (build_variant_list keys)) k with
  | none => rw [hl] at hcol; simp at hcol
  | some l =>
    rw [hl] at hcol
    simp only [Option.getD_some] at hcol
    obtain ⟨l', hl', hiff⟩ := sortBuckets_alookup hc k l hl
    exact ⟨l', hl', (hiff _).mpr hcol⟩

theorem variant_retrieval_normalization_independent_witness :
    (kGa ∈ build_variant_list [kGa] ∧ nfd kGa ∈ build_variant_list [kGa] ∧
      nfc kGa ∈ build_variant_list [kGa]) ∧
    (build_variant_list [kGa]).Nodup ∧
    [] ∉ build_variant_list [kGa] ∧
    (∀ s : List Nat, nfc (nfc s) = nfc s) ∧
    sqlMatches (build_variant_list [kGa]) qGa = true ∧
    rowKey qGa = kGa ∧
    rowCandidate qGa ∈
      (alookup (collectCandidates [qGa] (build_variant_list [kGa])) kGa).getD [] ∧
    (∀ cmap, fetch_candidates_for_lemma_keys [qGa] [kGa] = some cmap →
      ∃ bucket, alookup cmap kGa = some bucket ∧ rowCandidate qGa ∈ bucket) :=
  variant_retrieval_normalization_independent [kGa] kGa [qGa] qGa
    (by decide) (by decide) (by decide) (by decide) (by decide)

end HakMun
